import Mathlib

/-!
# Verification of the Healthy-basket groceries service

A shallow embedding of the Python modules `src/groceries/service.py` and
`src/core/mcp_client.py` (plus the parts of `src/core/schemas.py`,
`src/core/config.py` and `src/core/constants.py` they use), together with
theorems settling the frozen behavioural claims about them.

Modelling conventions:
* Python's JSON-serialisable values are the inductive `Json` below.  Numbers
  are rationals; the program only ever produces integers and finite decimal
  fractions, floats are outside the scope of the embedding.
* Python exceptions are modelled with `Except PyErr`.  Only the exception
  class matters to the claims, so `PyErr` keeps tags, not messages.
* External services (the JSON-RPC tool host via `requests`, the Bedrock LLM)
  are oracles passed in as functions, mirroring how the code receives
  injectable `ToolInvoker` / `LLMClient` objects.
* The Python standard-library `json` module is modelled concretely:
  `pyJsonDumps` mirrors `json.dumps` with its default separators and
  `ensure_ascii` escaping, and `pyJsonLoads` is a strict JSON reader (it
  rejects floats, which the embedding cannot represent).
-/

/- Rational arithmetic must evaluate inside `decide`/`rfl` witnesses; the
library marks these operations irreducible for elaboration performance. -/
attribute [local semireducible] Rat.add Rat.mul Rat.sub Rat.inv

/-- JSON values as Python produces and consumes them.  Objects are ordered
association lists, mirroring insertion-ordered Python dicts. -/
inductive Json where
  | null : Json
  | bool : Bool → Json
  | num : ℚ → Json
  | str : String → Json
  | arr : List Json → Json
  | obj : List (String × Json) → Json
  deriving Inhabited

/-- Python exception classes that the modelled code can raise. -/
inductive PyErr where
  | typeError : PyErr
  | attributeError : PyErr
  | keyError : PyErr
  | valueError : PyErr
  deriving DecidableEq, Inhabited

/-- First-occurrence lookup in an ordered association list (Python dict access). -/
def jLookup (kvs : List (String × Json)) (k : String) : Option Json :=
  match kvs with
  | [] => none
  | (k', v) :: rest => if k' = k then some v else jLookup rest k

/-- Python `d[k] = v` on an ordered dict: overwrite in place, else append. -/
def jSet (kvs : List (String × Json)) (k : String) (v : Json) : List (String × Json) :=
  match kvs with
  | [] => [(k, v)]
  | (k', v') :: rest => if k' = k then (k', v) :: rest else (k', v') :: jSet rest k v

/-- Python truthiness of a JSON value (`bool(x)`). -/
def pyTruthy : Json → Bool
  | .null => false
  | .bool b => b
  | .num q => q ≠ 0
  | .str s => s ≠ ""
  | .arr l => !l.isEmpty
  | .obj l => !l.isEmpty

/-- Python `x == s` where `s` is a `str` constant: true only for an equal
string (every comparison the modelled code performs is against a string). -/
def jsonEqStr (x : Json) (s : String) : Bool :=
  match x with
  | .str t => t == s
  | _ => false

/-- Python `x.get(k, default)`: `AttributeError` on non-dicts. -/
def pyGetD (x : Json) (k : String) (dflt : Json) : Except PyErr Json :=
  match x with
  | .obj kvs => .ok ((jLookup kvs k).getD dflt)
  | _ => .error .attributeError

/-- Python `x[k]` with a string key. -/
def pySubscript (x : Json) (k : String) : Except PyErr Json :=
  match x with
  | .obj kvs =>
    match jLookup kvs k with
    | some v => .ok v
    | none => .error .keyError
  | _ => .error .typeError

/-- Python `k in x` for a string `k`: key test for dicts, membership for
lists, substring test for strings, `TypeError` otherwise. -/
def pyContains (x : Json) (k : String) : Except PyErr Bool :=
  match x with
  | .obj kvs => .ok ((jLookup kvs k).isSome)
  | .arr l => .ok (l.any (fun e => jsonEqStr e k))
  | .str s => .ok (List.isInfixChars k.data s.data)
  | _ => .error .typeError
where
  /-- contiguous-sublist test on character lists (Python `sub in s`). -/
  List.isInfixChars (n h : List Char) : Bool :=
    n.isPrefixOf h ||
      (match h with
       | [] => false
       | _ :: t => List.isInfixChars n t)

/-- Python `len(x)`. -/
def pyLen (x : Json) : Except PyErr ℤ :=
  match x with
  | .arr l => .ok l.length
  | .obj l => .ok l.length
  | .str s => .ok s.data.length
  | _ => .error .typeError

/-- `isinstance(x, int)` — in Python `bool` is a subclass of `int`; the
embedding identifies Python ints with denominator-1 rationals. -/
def pyIsInt (x : Json) : Bool :=
  match x with
  | .num q => q.den == 1
  | .bool _ => true
  | _ => false

/-- Numeric value used when a `pyIsInt` value is compared or added. -/
def pyNumVal (x : Json) : ℚ :=
  match x with
  | .num q => q
  | .bool b => if b then 1 else 0
  | _ => 0

/-! ## Character and string helpers (Python `str` methods) -/

/-- Python `sub in s` on strings, as a standalone Bool. -/
def substrB (needle haystack : String) : Bool :=
  pyContains.List.isInfixChars needle.data haystack.data

/-- Python `s.lower()` (basic-latin part; the program only handles ASCII). -/
def pyLower (s : String) : String := String.mk (s.data.map Char.toLower)

/-- ASCII part of Python's `str.strip` whitespace set. -/
def pyWsChar (c : Char) : Bool :=
  c = ' ' || c = '\t' || c = '\n' || c = '\r' || c = '\x0b' || c = '\x0c'

/-- Python `s.strip()`. -/
def pyStrip (s : String) : String :=
  String.mk (((s.data.dropWhile pyWsChar).reverse.dropWhile pyWsChar).reverse)

/-- Python `s.find(c)` for a single character: first index, `none` for -1. -/
def pyFindChar (s : String) (c : Char) : Option ℕ := s.data.findIdx? (· = c)

/-- Python `s.rfind(c)` for a single character: last index, `none` for -1. -/
def pyRfindChar (s : String) (c : Char) : Option ℕ :=
  (s.data.reverse.findIdx? (· = c)).map (fun i => s.data.length - 1 - i)

theorem substr_trans {a b c : String}
    (h1 : substrB a b = true) (h2 : substrB b c = true) : substrB a c = true := by
  have key : ∀ n h : List Char, pyContains.List.isInfixChars n h = true ↔ n <:+: h := by
    intro n h
    induction h with
    | nil =>
      simp only [pyContains.List.isInfixChars]
      constructor
      · intro hp
        simp only [Bool.or_false] at hp
        exact (List.isPrefixOf_iff_prefix.mp hp).isInfix
      · intro hi
        have := List.eq_nil_of_infix_nil hi
        subst this
        simp
    | cons x t ih =>
      simp only [pyContains.List.isInfixChars, Bool.or_eq_true]
      constructor
      · rintro (hp | ht)
        · exact (List.isPrefixOf_iff_prefix.mp hp).isInfix
        · exact List.infix_cons (ih.mp ht)
      · intro hi
        rcases hi with ⟨s, t', hst⟩
        cases s with
        | nil =>
          left
          exact List.isPrefixOf_iff_prefix.mpr ⟨t', by simpa using hst⟩
        | cons y ys =>
          right
          apply ih.mpr
          exact ⟨ys, t', by simpa using congrArg List.tail hst⟩
  exact (key _ _).mpr (((key _ _).mp h1).trans ((key _ _).mp h2))

/-! ## Model of the Python `json` standard library

`pyJsonDumps` mirrors `json.dumps` with default arguments: separators
`", "` and `": "`, `ensure_ascii=True` escaping (named two-character
escapes, `\uXXXX` for other controls and non-ASCII, surrogate pairs above
the BMP).  `pyJsonLoads` mirrors `json.loads` on the JSON fragment the
program exercises; number literals with a fractional part or exponent
(Python floats) are outside the embedding and fail to parse. -/

def digitChar (n : ℕ) : Char := Char.ofNat (48 + n)

/-- Decimal digits of a natural number, most significant first; fuel-driven
(`n + 1` fuel always suffices) so it evaluates in the kernel. -/
def natCharsF : ℕ → ℕ → List Char
  | 0, _ => []
  | f + 1, n => if n < 10 then [digitChar n] else natCharsF f (n / 10) ++ [digitChar (n % 10)]

def natChars (n : ℕ) : List Char := natCharsF (n + 1) n

def intChars (i : ℤ) : List Char :=
  if i < 0 then '-' :: natChars i.natAbs else natChars i.toNat

/-- Digits of the fractional part of a rational in `[0, 1)`.  The modelled
program only serialises integers and finite decimal fractions (confidence
scores); the 32-digit cut-off is never reached by a program value. -/
def fracCharsF : ℕ → ℚ → List Char
  | 0, _ => []
  | f + 1, q =>
    if q = 0 then []
    else
      let d := (q * 10).floor.toNat
      digitChar d :: fracCharsF f (q * 10 - d)

/-- Rendering of a Python number by `json.dumps` / `repr`. -/
def numChars (q : ℚ) : List Char :=
  if q.den = 1 then intChars q.num
  else
    (if q < 0 then ['-'] else []) ++
      natChars |q|.floor.toNat ++ '.' :: fracCharsF 32 (|q| - |q|.floor)

def hexDigitChar (n : ℕ) : Char := Char.ofNat (if n < 10 then 48 + n else 87 + n)

def hex4 (n : ℕ) : List Char :=
  [hexDigitChar (n / 4096 % 16), hexDigitChar (n / 256 % 16),
   hexDigitChar (n / 16 % 16), hexDigitChar (n % 16)]

/-- `ensure_ascii` escaping of one character (CPython's `py_encode_basestring_ascii`). -/
def escChar (c : Char) : List Char :=
  if c = '"' then ['\\', '"']
  else if c = '\\' then ['\\', '\\']
  else if c = '\x08' then ['\\', 'b']
  else if c = '\x0c' then ['\\', 'f']
  else if c = '\n' then ['\\', 'n']
  else if c = '\r' then ['\\', 'r']
  else if c = '\t' then ['\\', 't']
  else if c.toNat < 0x20 then '\\' :: 'u' :: hex4 c.toNat
  else if c.toNat ≤ 0x7e then [c]
  else if c.toNat < 0x10000 then '\\' :: 'u' :: hex4 c.toNat
  else
    ('\\' :: 'u' :: hex4 (0xd800 + (c.toNat - 0x10000) / 0x400)) ++
      ('\\' :: 'u' :: hex4 (0xdc00 + (c.toNat - 0x10000) % 0x400))

def escStr (cs : List Char) : List Char := cs.flatMap escChar

/-- A JSON string literal: quotes around the escaped characters. -/
def quoteChars (s : String) : List Char := '"' :: (escStr s.data ++ ['"'])

mutual
def dumpJson : Json → List Char
  | .null => "null".data
  | .bool true => "true".data
  | .bool false => "false".data
  | .num q => numChars q
  | .str s => quoteChars s
  | .arr l => '[' :: (dumpElems l ++ [']'])
  | .obj m => '{' :: (dumpMembs m ++ ['}'])
def dumpElems : List Json → List Char
  | [] => []
  | [x] => dumpJson x
  | x :: y :: t => dumpJson x ++ ',' :: ' ' :: dumpElems (y :: t)
def dumpMembs : List (String × Json) → List Char
  | [] => []
  | [(k, v)] => quoteChars k ++ ':' :: ' ' :: dumpJson v
  | (k, v) :: m :: t => (quoteChars k ++ ':' :: ' ' :: dumpJson v) ++ ',' :: ' ' :: dumpMembs (m :: t)
end

def pyJsonDumps (v : Json) : String := String.mk (dumpJson v)

/-- Keys are pairwise distinct (Python dicts cannot hold duplicates). -/
def nodupKeysB : List String → Bool
  | [] => true
  | k :: ks => !ks.contains k && nodupKeysB ks

mutual
/-- Values representable by the embedding's Python counterparts: integral
numbers (floats are out of scope) and duplicate-free object keys. -/
def jsonWfB : Json → Bool
  | .null => true
  | .bool _ => true
  | .str _ => true
  | .num q => q.den == 1
  | .arr l => jsonWfLB l
  | .obj m => nodupKeysB (m.map Prod.fst) && jsonWfOB m
def jsonWfLB : List Json → Bool
  | [] => true
  | x :: t => jsonWfB x && jsonWfLB t
def jsonWfOB : List (String × Json) → Bool
  | [] => true
  | (_, v) :: t => jsonWfB v && jsonWfOB t
end

mutual
/-- Parser-fuel measure of a value (proof-only). -/
def jsize : Json → ℕ
  | .null => 1
  | .bool _ => 1
  | .num _ => 1
  | .str _ => 1
  | .arr l => 1 + jsizeL l
  | .obj m => 1 + jsizeO m
def jsizeL : List Json → ℕ
  | [] => 0
  | x :: t => 1 + jsize x + jsizeL t
def jsizeO : List (String × Json) → ℕ
  | [] => 0
  | (_, v) :: t => 1 + jsize v + jsizeO t
end

def jsonWsC (c : Char) : Bool := c = ' ' || c = '\t' || c = '\n' || c = '\r'

def skipWs (cs : List Char) : List Char := cs.dropWhile jsonWsC

def hexVal (c : Char) : Option ℕ :=
  if 48 ≤ c.toNat ∧ c.toNat ≤ 57 then some (c.toNat - 48)
  else if 97 ≤ c.toNat ∧ c.toNat ≤ 102 then some (c.toNat - 87)
  else if 65 ≤ c.toNat ∧ c.toNat ≤ 70 then some (c.toNat - 55)
  else none

def hex4Val (a b c d : Char) : Option ℕ := do
  let x ← hexVal a
  let y ← hexVal b
  let z ← hexVal c
  let w ← hexVal d
  pure (((x * 16 + y) * 16 + z) * 16 + w)

/-- Body of a JSON string literal (after the opening quote), producing the
decoded characters and the input after the closing quote.  Fuel-driven;
the input length plus one always suffices.  Strict mode: raw control
characters are rejected, surrogate pairs are combined; a lone surrogate
(which Python would keep) is unrepresentable in `Char` and rejected. -/
def parseStrBodyF : ℕ → List Char → Option (List Char × List Char)
  | 0, _ => none
  | _ + 1, [] => none
  | f + 1, c :: rest =>
    if c = '"' then some ([], rest)
    else if c = '\\' then
      match rest with
      | [] => none
      | e :: r2 =>
        if e = '"' ∨ e = '\\' ∨ e = '/' then
          (parseStrBodyF f r2).map (fun p => (e :: p.1, p.2))
        else if e = 'b' then (parseStrBodyF f r2).map (fun p => ('\x08' :: p.1, p.2))
        else if e = 'f' then (parseStrBodyF f r2).map (fun p => ('\x0c' :: p.1, p.2))
        else if e = 'n' then (parseStrBodyF f r2).map (fun p => ('\n' :: p.1, p.2))
        else if e = 'r' then (parseStrBodyF f r2).map (fun p => ('\r' :: p.1, p.2))
        else if e = 't' then (parseStrBodyF f r2).map (fun p => ('\t' :: p.1, p.2))
        else if e = 'u' then
          match r2 with
          | h1 :: h2 :: h3 :: h4 :: r3 =>
            match hex4Val h1 h2 h3 h4 with
            | none => none
            | some n =>
              if 0xd800 ≤ n ∧ n < 0xdc00 then
                match r3 with
                | '\\' :: 'u' :: g1 :: g2 :: g3 :: g4 :: r4 =>
                  (match hex4Val g1 g2 g3 g4 with
                   | some m =>
                     if 0xdc00 ≤ m ∧ m < 0xe000 then
                       (parseStrBodyF f r4).map
                         (fun p => (Char.ofNat ((n - 0xd800) * 0x400 + (m - 0xdc00) + 0x10000) :: p.1, p.2))
                     else none
                   | none => none)
                | _ => none
              else if 0xdc00 ≤ n ∧ n < 0xe000 then none
              else (parseStrBodyF f r3).map (fun p => (Char.ofNat n :: p.1, p.2))
          | _ => none
        else none
    else if c.toNat < 0x20 then none
    else (parseStrBodyF f rest).map (fun p => (c :: p.1, p.2))

def isDigitC (c : Char) : Bool := 48 ≤ c.toNat && c.toNat ≤ 57

def digitsToNat (ds : List Char) : ℕ := ds.foldl (fun a c => a * 10 + (c.toNat - 48)) 0

def parseNatTok (cs : List Char) : Option (ℕ × List Char) :=
  let ds := cs.takeWhile isDigitC
  if ds.isEmpty then none else some (digitsToNat ds, cs.dropWhile isDigitC)

/-- Python dict insertion: overwrite in place keeps the original position. -/
def objInsert : List (String × Json) → String → Json → List (String × Json)
  | [], k, v => [(k, v)]
  | (k', v') :: rest, k, v =>
    if k' = k then (k', v) :: rest else (k', v') :: objInsert rest k v

def buildDict (ps : List (String × Json)) : List (String × Json) :=
  ps.foldl (fun a kv => objInsert a kv.1 kv.2) []

mutual
/-- JSON value (no leading whitespace), returning the value and the rest. -/
def pvF : ℕ → List Char → Option (Json × List Char)
  | 0, _ => none
  | f + 1, cs =>
    match cs with
    | [] => none
    | c :: rest =>
      if c = 'n' then
        match rest with
        | 'u' :: 'l' :: 'l' :: r => some (.null, r)
        | _ => none
      else if c = 't' then
        match rest with
        | 'r' :: 'u' :: 'e' :: r => some (.bool true, r)
        | _ => none
      else if c = 'f' then
        match rest with
        | 'a' :: 'l' :: 's' :: 'e' :: r => some (.bool false, r)
        | _ => none
      else if c = '"' then
        (parseStrBodyF (rest.length + 1) rest).map (fun p => (.str (String.mk p.1), p.2))
      else if c = '[' then
        let r1 := skipWs rest
        if r1.head? = some ']' then some (.arr [], r1.tail)
        else (pElemsF f r1).map (fun p => (.arr p.1, p.2))
      else if c = '{' then
        let r1 := skipWs rest
        if r1.head? = some '}' then some (.obj [], r1.tail)
        else (pMembersF f r1).map (fun p => (.obj (buildDict p.1), p.2))
      else if c = '-' then
        (parseNatTok rest).map (fun p => (.num (-(p.1 : ℚ)), p.2))
      else if isDigitC c then
        (parseNatTok (c :: rest)).map (fun p => (.num (p.1 : ℚ), p.2))
      else none
/-- Non-empty comma-separated element list up to the closing bracket. -/
def pElemsF : ℕ → List Char → Option (List Json × List Char)
  | 0, _ => none
  | f + 1, cs => do
    let (v, r) ← pvF f cs
    match skipWs r with
    | ',' :: r2 => do
      let (vs, r3) ← pElemsF f (skipWs r2)
      pure (v :: vs, r3)
    | ']' :: r2 => pure ([v], r2)
    | _ => none
/-- Non-empty member list (in parse order) up to the closing brace. -/
def pMembersF : ℕ → List Char → Option (List (String × Json) × List Char)
  | 0, _ => none
  | f + 1, cs =>
    match cs with
    | '"' :: r0 => do
      let (k, r1) ← parseStrBodyF (r0.length + 1) r0
      match skipWs r1 with
      | ':' :: r2 => do
        let (v, r3) ← pvF f (skipWs r2)
        match skipWs r3 with
        | ',' :: r4 => do
          let (ps, r5) ← pMembersF f (skipWs r4)
          pure ((String.mk k, v) :: ps, r5)
        | '}' :: r4 => pure ([(String.mk k, v)], r4)
        | _ => none
      | _ => none
    | _ => none
end

def pyJsonLoads (s : String) : Option Json :=
  let cs := skipWs s.data
  match pvF (cs.length + 1) cs with
  | some (v, r) => if (skipWs r).isEmpty then some v else none
  | none => none

/-! ### Round-trip lemmas: `pyJsonLoads` inverts `pyJsonDumps` on well-formed values -/

theorem toNat_ofNat_valid {n : ℕ} (h : n.isValidChar) : (Char.ofNat n).toNat = n := by
  rw [Char.ofNat, dif_pos h]
  simp [Char.ofNatAux, Char.toNat, UInt32.toNat, BitVec.toNat_ofNatLt]

theorem digitChar_toNat {d : ℕ} (h : d < 10) : (digitChar d).toNat = 48 + d := by
  have : (48 + d).isValidChar := Or.inl (by omega)
  simp [digitChar, toNat_ofNat_valid this]

theorem isDigitC_digitChar {d : ℕ} (h : d < 10) : isDigitC (digitChar d) = true := by
  simp [isDigitC, digitChar_toNat h]
  omega

theorem natCharsF_eq {n : ℕ} : ∀ {f g : ℕ}, n < f → n < g → natCharsF f n = natCharsF g n := by
  induction n using Nat.strong_induction_on with
  | _ n ih =>
    intro f g hf hg
    match f, g with
    | f' + 1, g' + 1 =>
      by_cases h10 : n < 10
      · simp [natCharsF, h10]
      · have hlt : n / 10 < n := Nat.div_lt_self (by omega) (by omega)
        simp only [natCharsF, if_neg h10]
        rw [show natCharsF f' (n / 10) = natCharsF g' (n / 10) from
          ih (n / 10) hlt (by omega) (by omega)]

theorem natChars_small {n : ℕ} (h : n < 10) : natChars n = [digitChar n] := by
  simp [natChars, natCharsF, h]

theorem natChars_big {n : ℕ} (h : 10 ≤ n) :
    natChars n = natChars (n / 10) ++ [digitChar (n % 10)] := by
  have hlt : n / 10 < n := Nat.div_lt_self (by omega) (by omega)
  show natCharsF (n + 1) n = _
  rw [natCharsF, if_neg (by omega : ¬n < 10)]
  congr 1
  exact natCharsF_eq (f := n) (g := n / 10 + 1) (by omega) (by omega)

theorem natChars_digits {n : ℕ} : ∀ c ∈ natChars n, isDigitC c = true := by
  induction n using Nat.strong_induction_on with
  | _ n ih =>
    by_cases h10 : n < 10
    · rw [natChars_small h10]
      intro c hc
      simp at hc
      subst hc
      exact isDigitC_digitChar h10
    · rw [natChars_big (by omega)]
      intro c hc
      rcases List.mem_append.mp hc with h | h
      · exact ih (n / 10) (Nat.div_lt_self (by omega) (by omega)) c h
      · simp at h
        subst h
        exact isDigitC_digitChar (Nat.mod_lt _ (by omega))

theorem natChars_ne_nil {n : ℕ} : natChars n ≠ [] := by
  by_cases h10 : n < 10
  · rw [natChars_small h10]; simp
  · rw [natChars_big (by omega)]; simp

theorem digitsToNat_natChars (n : ℕ) : digitsToNat (natChars n) = n := by
  induction n using Nat.strong_induction_on with
  | _ n ih =>
    by_cases h10 : n < 10
    · rw [natChars_small h10]
      simp [digitsToNat, digitChar_toNat h10]
    · rw [natChars_big (by omega)]
      have : digitsToNat (natChars (n / 10) ++ [digitChar (n % 10)]) =
          digitsToNat (natChars (n / 10)) * 10 + ((digitChar (n % 10)).toNat - 48) := by
        simp [digitsToNat, List.foldl_append]
      rw [this, ih (n / 10) (Nat.div_lt_self (by omega) (by omega)),
        digitChar_toNat (Nat.mod_lt _ (by omega))]
      omega

/-- The continuation after a serialised value: end of input or a separator. -/
def delimB (cs : List Char) : Bool :=
  match cs with
  | [] => true
  | c :: _ => c = ',' || c = ']' || c = '}'

theorem delim_head_not_digit {rest : List Char} (h : delimB rest = true) :
    ∀ c ∈ rest.head?, isDigitC c = false := by
  intro c hc
  cases rest with
  | nil => simp at hc
  | cons x t =>
    simp at hc
    subst hc
    simp only [delimB, Bool.or_eq_true, decide_eq_true_eq] at h
    rcases h with (h | h) | h <;> subst h <;> decide

theorem parseNatTok_natChars (n : ℕ) (rest : List Char)
    (hr : ∀ c ∈ rest.head?, isDigitC c = false) :
    parseNatTok (natChars n ++ rest) = some (n, rest) := by
  have htw0 : rest.takeWhile isDigitC = [] := by
    cases rest with
    | nil => rfl
    | cons x t =>
      have : isDigitC x = false := hr x (by simp)
      simp [List.takeWhile_cons, this]
  have hdw0 : rest.dropWhile isDigitC = rest := by
    cases rest with
    | nil => rfl
    | cons x t =>
      have : isDigitC x = false := hr x (by simp)
      simp [List.dropWhile_cons, this]
  have htw : (natChars n ++ rest).takeWhile isDigitC = natChars n := by
    rw [List.takeWhile_append_of_pos natChars_digits, htw0, List.append_nil]
  have hdw : (natChars n ++ rest).dropWhile isDigitC = rest := by
    rw [List.dropWhile_append_of_pos natChars_digits, hdw0]
  simp only [parseNatTok, htw, hdw]
  rw [if_neg (by simp [List.isEmpty_iff, natChars_ne_nil])]
  rw [digitsToNat_natChars]

theorem isDigitC_ne {c : Char} (h : isDigitC c = true) :
    c ≠ 'n' ∧ c ≠ 't' ∧ c ≠ 'f' ∧ c ≠ '"' ∧ c ≠ '[' ∧ c ≠ '{' ∧ c ≠ '-' := by
  refine ⟨?_, ?_, ?_, ?_, ?_, ?_, ?_⟩ <;> rintro rfl <;> exact absurd h (by decide)

theorem pvF_digits (f : ℕ) (n : ℕ) (rest : List Char) (hr : delimB rest = true) :
    pvF (f + 1) (natChars n ++ rest) = some (.num (n : ℚ), rest) := by
  obtain ⟨c, cs, hc⟩ : ∃ c cs, natChars n = c :: cs := by
    cases h : natChars n with
    | nil => exact absurd h natChars_ne_nil
    | cons a b => exact ⟨a, b, rfl⟩
  have hdig : isDigitC c = true := natChars_digits c (by rw [hc]; simp)
  obtain ⟨h1, h2, h3, h4, h5, h6, h7⟩ := isDigitC_ne hdig
  rw [hc, List.cons_append]
  simp only [pvF, if_neg h1, if_neg h2, if_neg h3, if_neg h4, if_neg h5, if_neg h6,
    if_neg h7, if_pos hdig]
  rw [← List.cons_append, ← hc, parseNatTok_natChars n rest (delim_head_not_digit hr)]
  rfl

theorem pv_num {q : ℚ} (h : q.den = 1) (f : ℕ) (rest : List Char) (hr : delimB rest = true) :
    pvF (f + 1) (numChars q ++ rest) = some (.num q, rest) := by
  have hq : ((q.num : ℤ) : ℚ) = q := (Rat.den_eq_one_iff q).mp h
  rw [numChars, if_pos h]
  rcases lt_or_le q.num 0 with hneg | hpos
  · rw [intChars, if_pos hneg, List.cons_append]
    simp only [pvF, reduceIte]
    rw [parseNatTok_natChars _ _ (delim_head_not_digit hr)]
    have : (-((q.num.natAbs : ℕ) : ℚ)) = q := by
      rw [← hq]
      rw [Int.cast_natAbs]
      simp [abs_of_neg (show (q.num : ℚ) < 0 by exact_mod_cast hneg)]
    simp [this]
  · rw [intChars, if_neg (not_lt.mpr hpos)]
    rw [pvF_digits f q.num.toNat rest hr]
    have h2 : ((q.num.toNat : ℕ) : ℤ) = q.num := Int.toNat_of_nonneg hpos
    have : ((q.num.toNat : ℕ) : ℚ) = q := by
      rw [← hq]
      exact_mod_cast h2
    simp [this]

theorem hexVal_hexDigitChar {d : ℕ} (h : d < 16) : hexVal (hexDigitChar d) = some d := by
  interval_cases d <;> decide

theorem hex4Val_hex4 {n : ℕ} (h : n < 65536) :
    hex4Val (hexDigitChar (n / 4096 % 16)) (hexDigitChar (n / 256 % 16))
      (hexDigitChar (n / 16 % 16)) (hexDigitChar (n % 16)) = some n := by
  rw [hex4Val, hexVal_hexDigitChar (Nat.mod_lt _ (by omega)),
    hexVal_hexDigitChar (Nat.mod_lt _ (by omega)),
    hexVal_hexDigitChar (Nat.mod_lt _ (by omega)),
    hexVal_hexDigitChar (Nat.mod_lt _ (by omega))]
  show some _ = some n
  congr 1
  omega

theorem parseStrBody_u4 (f : ℕ) (a b c d : Char) (r3 : List Char) :
    parseStrBodyF (f + 1) ('\\' :: 'u' :: a :: b :: c :: d :: r3) =
      match hex4Val a b c d with
      | none => none
      | some n =>
        if 0xd800 ≤ n ∧ n < 0xdc00 then
          match r3 with
          | '\\' :: 'u' :: g1 :: g2 :: g3 :: g4 :: r4 =>
            (match hex4Val g1 g2 g3 g4 with
             | some m =>
               if 0xdc00 ≤ m ∧ m < 0xe000 then
                 (parseStrBodyF f r4).map
                   (fun p => (Char.ofNat ((n - 0xd800) * 0x400 + (m - 0xdc00) + 0x10000) :: p.1, p.2))
               else none
             | none => none)
          | _ => none
        else if 0xdc00 ≤ n ∧ n < 0xe000 then none
        else (parseStrBodyF f r3).map (fun p => (Char.ofNat n :: p.1, p.2)) := by
  simp [parseStrBodyF]

theorem pstr_u_bmp {n : ℕ} (hn : n < 65536) (hlo : ¬(0xd800 ≤ n ∧ n < 0xdc00))
    (hhi : ¬(0xdc00 ≤ n ∧ n < 0xe000)) (f : ℕ) (r : List Char) :
    parseStrBodyF (f + 1) ('\\' :: 'u' :: (hex4 n ++ r)) =
      (parseStrBodyF f r).map (fun p => (Char.ofNat n :: p.1, p.2)) := by
  simp only [hex4, List.cons_append, List.nil_append]
  rw [parseStrBody_u4, hex4Val_hex4 hn]
  simp only [if_neg hlo, if_neg hhi]

theorem pstr_u_pair {t : ℕ} (h1 : 0x10000 ≤ t) (h2 : t < 0x110000) (f : ℕ) (r : List Char) :
    parseStrBodyF (f + 1)
      ('\\' :: 'u' :: (hex4 (0xd800 + (t - 0x10000) / 0x400) ++
        ('\\' :: 'u' :: (hex4 (0xdc00 + (t - 0x10000) % 0x400) ++ r)))) =
      (parseStrBodyF f r).map (fun p => (Char.ofNat t :: p.1, p.2)) := by
  have hdivlt : (t - 0x10000) / 0x400 < 0x400 := by omega
  have hmodlt : (t - 0x10000) % 0x400 < 0x400 := Nat.mod_lt _ (by omega)
  have hp1 : 0xd800 ≤ 0xd800 + (t - 0x10000) / 0x400 ∧
      0xd800 + (t - 0x10000) / 0x400 < 0xdc00 := by omega
  simp only [hex4, List.cons_append, List.nil_append]
  rw [parseStrBody_u4, hex4Val_hex4 (by omega)]
  simp only [if_pos hp1]
  rw [hex4Val_hex4 (show 56320 + (t - 65536) % 1024 < 65536 by omega)]
  have hp2 : 56320 ≤ 56320 + (t - 65536) % 1024 ∧ 56320 + (t - 65536) % 1024 < 57344 := by
    omega
  simp only [if_pos hp2]
  have harith : (55296 + (t - 65536) / 1024 - 55296) * 1024 +
      (56320 + (t - 65536) % 1024 - 56320) + 65536 = t := by omega
  rw [harith]

theorem parseStrBody_raw {c : Char} (hq : c ≠ '"') (hb : c ≠ '\\') (hctl : ¬c.toNat < 0x20)
    (f : ℕ) (r : List Char) :
    parseStrBodyF (f + 1) (c :: r) = (parseStrBodyF f r).map (fun p => (c :: p.1, p.2)) := by
  simp only [parseStrBodyF, if_neg hq, if_neg hb, if_neg hctl]

theorem pstr_esc (s : List Char) : ∀ fuel rest, s.length < fuel →
    parseStrBodyF fuel (escStr s ++ '"' :: rest) = some (s, rest) := by
  induction s with
  | nil =>
    intro fuel rest hf
    match fuel with
    | f + 1 => simp [escStr, parseStrBodyF]
  | cons c cs ih =>
    intro fuel rest hf
    match fuel with
    | f + 1 =>
    have hf' : cs.length < f := by
      simp only [List.length_cons] at hf
      omega
    have hcs := ih f rest hf'
    have hesc : escStr (c :: cs) = escChar c ++ escStr cs := by
      simp [escStr]
    rw [hesc, List.append_assoc]
    by_cases h1 : c = '"'
    · subst h1
      simp [escChar, parseStrBodyF, hcs]
    · by_cases h2 : c = '\\'
      · subst h2
        simp [escChar, parseStrBodyF, hcs]
      · by_cases h3 : c = '\x08'
        · subst h3
          simp [escChar, parseStrBodyF, hcs]
        · by_cases h4 : c = '\x0c'
          · subst h4
            simp [escChar, parseStrBodyF, hcs]
          · by_cases h5 : c = '\n'
            · subst h5
              simp [escChar, parseStrBodyF, hcs]
            · by_cases h6 : c = '\r'
              · subst h6
                simp [escChar, parseStrBodyF, hcs]
              · by_cases h7 : c = '\t'
                · subst h7
                  simp [escChar, parseStrBodyF, hcs]
                · by_cases h8 : c.toNat < 0x20
                  · -- other control characters: \u00XX
                    rw [escChar, if_neg h1, if_neg h2, if_neg h3, if_neg h4, if_neg h5,
                      if_neg h6, if_neg h7, if_pos h8]
                    rw [List.cons_append, List.cons_append]
                    rw [pstr_u_bmp (by omega) (by omega) (by omega) f _]
                    rw [hcs]
                    simp
                  · by_cases h9 : c.toNat ≤ 0x7e
                    · -- printable ASCII other than quote/backslash: kept raw
                      rw [escChar, if_neg h1, if_neg h2, if_neg h3, if_neg h4, if_neg h5,
                        if_neg h6, if_neg h7, if_neg h8, if_pos h9]
                      simp only [List.cons_append, List.nil_append]
                      rw [parseStrBody_raw h1 h2 h8, hcs]
                      rfl
                    · by_cases h10 : c.toNat < 0x10000
                      · -- non-ASCII plane-0 character: \uXXXX
                        have hval : c.toNat < 0xd800 ∨ (0xdfff < c.toNat ∧ c.toNat < 0x110000) :=
                          c.valid
                        rw [escChar, if_neg h1, if_neg h2, if_neg h3, if_neg h4, if_neg h5,
                          if_neg h6, if_neg h7, if_neg h8, if_neg h9, if_pos h10]
                        rw [List.cons_append, List.cons_append]
                        rw [pstr_u_bmp h10 (by omega) (by omega) f _]
                        rw [hcs]
                        simp
                      · -- astral character: a surrogate pair
                        have hval : c.toNat < 0xd800 ∨ (0xdfff < c.toNat ∧ c.toNat < 0x110000) :=
                          c.valid
                        have hlb : 0x10000 ≤ c.toNat := by omega
                        have hub : c.toNat < 0x110000 := by omega
                        rw [escChar, if_neg h1, if_neg h2, if_neg h3, if_neg h4, if_neg h5,
                          if_neg h6, if_neg h7, if_neg h8, if_neg h9, if_neg h10]
                        rw [show (('\\' :: 'u' :: hex4 (0xd800 + (c.toNat - 0x10000) / 0x400)) ++
                            ('\\' :: 'u' :: hex4 (0xdc00 + (c.toNat - 0x10000) % 0x400))) ++
                              (escStr cs ++ '"' :: rest) =
                            '\\' :: 'u' :: (hex4 (0xd800 + (c.toNat - 0x10000) / 0x400) ++
                              ('\\' :: 'u' :: (hex4 (0xdc00 + (c.toNat - 0x10000) % 0x400) ++
                                (escStr cs ++ '"' :: rest)))) from by
                          simp [List.cons_append, List.append_assoc]]
                        rw [pstr_u_pair hlb hub f _, hcs]
                        simp

theorem string_mk_data (s : String) : String.mk s.data = s := rfl

theorem escStr_len_ge (s : List Char) : s.length ≤ (escStr s).length := by
  induction s with
  | nil => simp [escStr]
  | cons c cs ih =>
    have h1 : 1 ≤ (escChar c).length := by
      rw [escChar]
      split
      · simp
      · split
        · simp
        · split
          · simp
          · split
            · simp
            · split
              · simp
              · split
                · simp
                · split
                  · simp
                  · split
                    · simp
                    · split
                      · simp
                      · split
                        · simp
                        · simp
    have : escStr (c :: cs) = escChar c ++ escStr cs := by simp [escStr]
    rw [this]
    simp only [List.length_cons, List.length_append]
    omega

theorem isDigitC_not_special {c : Char} (h : isDigitC c = true) :
    jsonWsC c = false ∧ c ≠ ']' ∧ c ≠ '}' ∧ c ≠ ',' := by
  refine ⟨?_, ?_, ?_, ?_⟩
  · cases hw : jsonWsC c
    · rfl
    · exfalso
      simp only [jsonWsC, Bool.or_eq_true, decide_eq_true_eq] at hw
      rcases hw with ((rfl | rfl) | rfl) | rfl <;> exact absurd h (by decide)
  all_goals (rintro rfl; exact absurd h (by decide))

theorem natChars_head (n : ℕ) : ∃ c cs, natChars n = c :: cs ∧ isDigitC c = true := by
  cases h : natChars n with
  | nil => exact absurd h natChars_ne_nil
  | cons a b =>
    exact ⟨a, b, rfl, natChars_digits a (by rw [h]; simp)⟩

/-- A serialised value starts with a character that is not whitespace and
not one of the closing/separator characters. -/
theorem dump_head (v : Json) :
    ∃ c cs, dumpJson v = c :: cs ∧ jsonWsC c = false ∧ c ≠ ']' ∧ c ≠ '}' ∧ c ≠ ',' := by
  cases v with
  | null => exact ⟨'n', _, rfl, by decide, by decide, by decide, by decide⟩
  | bool b =>
    cases b with
    | true => exact ⟨'t', _, rfl, by decide, by decide, by decide, by decide⟩
    | false => exact ⟨'f', _, rfl, by decide, by decide, by decide, by decide⟩
  | str s => exact ⟨'"', _, rfl, by decide, by decide, by decide, by decide⟩
  | arr l => exact ⟨'[', _, rfl, by decide, by decide, by decide, by decide⟩
  | obj m => exact ⟨'{', _, rfl, by decide, by decide, by decide, by decide⟩
  | num q =>
    show ∃ c cs, numChars q = c :: cs ∧ _
    rw [numChars]
    by_cases hden : q.den = 1
    · rw [if_pos hden, intChars]
      by_cases hneg : q.num < 0
      · rw [if_pos hneg]
        exact ⟨'-', _, rfl, by decide, by decide, by decide, by decide⟩
      · rw [if_neg hneg]
        obtain ⟨c, cs, hc, hd⟩ := natChars_head q.num.toNat
        obtain ⟨w, x, y, z⟩ := isDigitC_not_special hd
        exact ⟨c, cs, hc, w, x, y, z⟩
    · rw [if_neg hden]
      by_cases hneg : q < 0
      · rw [if_pos hneg]
        exact ⟨'-', _, rfl, by decide, by decide, by decide, by decide⟩
      · rw [if_neg hneg]
        obtain ⟨c, cs, hc, hd⟩ := natChars_head |q|.floor.toNat
        obtain ⟨w, x, y, z⟩ := isDigitC_not_special hd
        refine ⟨c, cs ++ '.' :: fracCharsF 32 (|q| - |q|.floor), ?_, w, x, y, z⟩
        simp [hc]

theorem skipWs_cons_not {c : Char} (h : jsonWsC c = false) (t : List Char) :
    skipWs (c :: t) = c :: t := by
  simp [skipWs, List.dropWhile_cons, h]

theorem objInsert_not_mem {acc : List (String × Json)} {k : String} (v : Json)
    (h : k ∉ acc.map Prod.fst) : objInsert acc k v = acc ++ [(k, v)] := by
  induction acc with
  | nil => rfl
  | cons p rest ih =>
    simp only [List.map_cons, List.mem_cons] at h
    push_neg at h
    obtain ⟨p1, p2⟩ := p
    rw [objInsert, if_neg (fun e => h.1 (by simp [e]))]
    rw [ih h.2]
    rfl

theorem foldl_objInsert (ps : List (String × Json)) :
    ∀ acc : List (String × Json), nodupKeysB (ps.map Prod.fst) = true →
      (∀ k ∈ ps.map Prod.fst, k ∉ acc.map Prod.fst) →
      ps.foldl (fun a kv => objInsert a kv.1 kv.2) acc = acc ++ ps := by
  induction ps with
  | nil =>
    intro acc _ _
    simp
  | cons p rest ih =>
    intro acc hnd hd
    obtain ⟨p1, p2⟩ := p
    simp only [List.map_cons, nodupKeysB, Bool.and_eq_true, Bool.not_eq_true'] at hnd
    have hp1 : p1 ∉ (rest.map Prod.fst) := by
      intro hmem
      have : (rest.map Prod.fst).contains p1 = true := by
        rw [List.contains_eq_any_beq]
        exact List.any_eq_true.mpr ⟨p1, hmem, by simp⟩
      rw [this] at hnd
      exact absurd hnd.1 (by simp)
    simp only [List.foldl_cons]
    rw [objInsert_not_mem p2 (hd p1 (by simp))]
    rw [ih (acc ++ [(p1, p2)]) hnd.2 ?side]
    · simp
    case side =>
      intro k hk
      simp only [List.map_append, List.mem_append]
      push_neg
      constructor
      · exact hd k (by simp [hk])
      · intro hm
        simp at hm
        subst hm
        exact hp1 hk

theorem buildDict_nodup (ps : List (String × Json))
    (h : nodupKeysB (ps.map Prod.fst) = true) : buildDict ps = ps := by
  have := foldl_objInsert ps [] h (by simp)
  simpa [buildDict] using this

theorem jsize_pos (v : Json) : 1 ≤ jsize v := by
  cases v <;> simp [jsize]

theorem skipWs_space (r : List Char) : skipWs (' ' :: r) = skipWs r := by
  simp [skipWs, List.dropWhile_cons, jsonWsC]

theorem pvF_quote (f : ℕ) (r : List Char) :
    pvF (f + 1) ('"' :: r) =
      (parseStrBodyF (r.length + 1) r).map (fun p => (.str (String.mk p.1), p.2)) := by
  simp [pvF]

theorem pvF_lbracket (f : ℕ) (r : List Char) :
    pvF (f + 1) ('[' :: r) =
      (if (skipWs r).head? = some ']' then some (.arr [], (skipWs r).tail)
       else (pElemsF f (skipWs r)).map (fun p => (.arr p.1, p.2))) := by
  simp [pvF]

theorem pvF_lbrace (f : ℕ) (r : List Char) :
    pvF (f + 1) ('{' :: r) =
      (if (skipWs r).head? = some '}' then some (.obj [], (skipWs r).tail)
       else (pMembersF f (skipWs r)).map (fun p => (.obj (buildDict p.1), p.2))) := by
  simp [pvF]

theorem dumpElems_head (x : Json) (xs : List Json) :
    ∃ c tl, dumpElems (x :: xs) = c :: tl ∧ jsonWsC c = false ∧ c ≠ ']' ∧ c ≠ '}' ∧ c ≠ ',' := by
  obtain ⟨c, cs, hc, h1, h2, h3, h4⟩ := dump_head x
  cases xs with
  | nil => exact ⟨c, cs, by simp [dumpElems, hc], h1, h2, h3, h4⟩
  | cons y t =>
    exact ⟨c, cs ++ ',' :: ' ' :: dumpElems (y :: t), by simp [dumpElems, hc], h1, h2, h3, h4⟩

theorem dumpMembs_head (p : String × Json) (t : List (String × Json)) :
    ∃ tl, dumpMembs (p :: t) = '"' :: tl := by
  obtain ⟨k, v⟩ := p
  cases t with
  | nil =>
    refine ⟨escStr k.data ++ '"' :: ':' :: ' ' :: dumpJson v, ?_⟩
    simp [dumpMembs, quoteChars]
  | cons m2 t2 =>
    refine ⟨escStr k.data ++ '"' :: ':' :: ' ' ::
      (dumpJson v ++ ',' :: ' ' :: dumpMembs (m2 :: t2)), ?_⟩
    simp [dumpMembs, quoteChars, List.append_assoc]

theorem skipWs_dumpElems (x : Json) (xs : List Json) (r : List Char) :
    skipWs (dumpElems (x :: xs) ++ r) = dumpElems (x :: xs) ++ r := by
  obtain ⟨c, tl, hc, h1, _, _, _⟩ := dumpElems_head x xs
  rw [hc, List.cons_append, skipWs_cons_not h1]

theorem skipWs_dumpMembs (p : String × Json) (t : List (String × Json)) (r : List Char) :
    skipWs (dumpMembs (p :: t) ++ r) = dumpMembs (p :: t) ++ r := by
  obtain ⟨tl, hc⟩ := dumpMembs_head p t
  rw [hc, List.cons_append, skipWs_cons_not (by decide)]

theorem skipWs_dump (v : Json) (r : List Char) :
    skipWs (dumpJson v ++ r) = dumpJson v ++ r := by
  obtain ⟨c, tl, hc, h1, _, _, _⟩ := dump_head v
  rw [hc, List.cons_append, skipWs_cons_not h1]

theorem delimB_cons_comma (r : List Char) : delimB (',' :: r) = true := by
  simp [delimB]

theorem delimB_cons_rbracket (r : List Char) : delimB (']' :: r) = true := by
  simp [delimB]

theorem delimB_cons_rbrace (r : List Char) : delimB ('}' :: r) = true := by
  simp [delimB]

mutual
theorem pv_dump (v : Json) : ∀ (f : ℕ) (rest : List Char), jsize v ≤ f →
    jsonWfB v = true → delimB rest = true →
    pvF f (dumpJson v ++ rest) = some (v, rest) := by
  intro f rest hf hwf hr
  obtain ⟨g, rfl⟩ : ∃ g, f = g + 1 := ⟨f - 1, by have := jsize_pos v; omega⟩
  cases v with
  | null => simp [dumpJson, pvF]
  | bool b => cases b <;> simp [dumpJson, pvF]
  | num q =>
    have hden : q.den = 1 := by simpa [jsonWfB] using hwf
    simpa [dumpJson] using pv_num hden g rest hr
  | str s =>
    show pvF (g + 1) (('"' :: (escStr s.data ++ ['"'])) ++ rest) = _
    rw [List.cons_append, pvF_quote]
    rw [List.append_assoc, List.singleton_append]
    rw [pstr_esc s.data _ rest (by
      have := escStr_len_ge s.data
      simp only [List.length_append, List.length_cons]
      omega)]
    simp [string_mk_data]
  | arr l =>
    cases l with
    | nil =>
      show pvF (g + 1) (('[' :: (dumpElems [] ++ [']'])) ++ rest) = _
      rw [show ('[' :: (dumpElems ([] : List Json) ++ [']'])) ++ rest =
          '[' :: (']' :: rest) from by simp [dumpElems]]
      rw [pvF_lbracket]
      rw [skipWs_cons_not (by decide)]
      simp
    | cons x xs =>
      have hwl : jsonWfLB (x :: xs) = true := by simpa [jsonWfB] using hwf
      have hfl : jsizeL (x :: xs) ≤ g := by
        simp only [jsize] at hf
        omega
      show pvF (g + 1) (('[' :: (dumpElems (x :: xs) ++ [']'])) ++ rest) = _
      rw [show ('[' :: (dumpElems (x :: xs) ++ [']'])) ++ rest =
          '[' :: (dumpElems (x :: xs) ++ ']' :: rest) from by simp [List.append_assoc]]
      rw [pvF_lbracket, skipWs_dumpElems x xs (']' :: rest)]
      obtain ⟨c, tl, hc, h1, h2, h3, h4⟩ := dumpElems_head x xs
      rw [if_neg (by rw [hc, List.cons_append]; simp [h2])]
      rw [pe_dump (x :: xs) g rest (by simp) hfl hwl]
      rfl
  | obj m =>
    cases m with
    | nil =>
      show pvF (g + 1) (('{' :: (dumpMembs [] ++ ['}'])) ++ rest) = _
      rw [show ('{' :: (dumpMembs ([] : List (String × Json)) ++ ['}'])) ++ rest =
          '{' :: ('}' :: rest) from by simp [dumpMembs]]
      rw [pvF_lbrace]
      rw [skipWs_cons_not (by decide)]
      simp [buildDict]
    | cons p t =>
      have hwo : nodupKeysB ((p :: t).map Prod.fst) = true ∧ jsonWfOB (p :: t) = true := by
        simpa [jsonWfB, Bool.and_eq_true] using hwf
      have hfo : jsizeO (p :: t) ≤ g := by
        simp only [jsize] at hf
        omega
      show pvF (g + 1) (('{' :: (dumpMembs (p :: t) ++ ['}'])) ++ rest) = _
      rw [show ('{' :: (dumpMembs (p :: t) ++ ['}'])) ++ rest =
          '{' :: (dumpMembs (p :: t) ++ '}' :: rest) from by simp [List.append_assoc]]
      rw [pvF_lbrace, skipWs_dumpMembs p t ('}' :: rest)]
      obtain ⟨tl, hc⟩ := dumpMembs_head p t
      rw [if_neg (by rw [hc, List.cons_append]; simp)]
      rw [pm_dump (p :: t) g rest (by simp) hfo hwo.2]
      simp [buildDict_nodup _ hwo.1]
theorem pe_dump (l : List Json) : ∀ (f : ℕ) (rest : List Char), l ≠ [] →
    jsizeL l ≤ f → jsonWfLB l = true →
    pElemsF f (dumpElems l ++ ']' :: rest) = some (l, rest) := by
  intro f rest hne hf hwl
  match l, hne with
  | x :: xs, _ =>
  obtain ⟨g, rfl⟩ : ∃ g, f = g + 1 := ⟨f - 1, by
    have := jsize_pos x
    simp only [jsizeL] at hf
    omega⟩
  have hwx : jsonWfB x = true ∧ jsonWfLB xs = true := by
    simpa [jsonWfLB, Bool.and_eq_true] using hwl
  cases xs with
  | nil =>
    show pElemsF (g + 1) (dumpJson x ++ ']' :: rest) = _
    simp only [pElemsF]
    rw [pv_dump x g (']' :: rest) (by simp only [jsizeL] at hf; omega) hwx.1
      (delimB_cons_rbracket rest)]
    simp [skipWs_cons_not (show jsonWsC ']' = false by decide)]
  | cons y t =>
    show pElemsF (g + 1) ((dumpJson x ++ ',' :: ' ' :: dumpElems (y :: t)) ++ ']' :: rest) = _
    rw [show (dumpJson x ++ ',' :: ' ' :: dumpElems (y :: t)) ++ ']' :: rest =
        dumpJson x ++ ',' :: ' ' :: (dumpElems (y :: t) ++ ']' :: rest) from by
      simp [List.append_assoc]]
    simp only [pElemsF]
    rw [pv_dump x g _ (by simp only [jsizeL] at hf; omega) hwx.1 (delimB_cons_comma _)]
    simp only [Option.bind_eq_bind, Option.some_bind]
    simp only [skipWs_cons_not (show jsonWsC ',' = false by decide), skipWs_space,
      skipWs_dumpElems y t (']' :: rest)]
    rw [pe_dump (y :: t) g rest (by simp)
      (by simp only [jsizeL] at hf ⊢; have := jsize_pos x; omega) hwx.2]
    rfl
theorem pm_dump (m : List (String × Json)) : ∀ (f : ℕ) (rest : List Char), m ≠ [] →
    jsizeO m ≤ f → jsonWfOB m = true →
    pMembersF f (dumpMembs m ++ '}' :: rest) = some (m, rest) := by
  intro f rest hne hf hwo
  match m, hne with
  | (k, v) :: t, _ =>
  obtain ⟨g, rfl⟩ : ∃ g, f = g + 1 := ⟨f - 1, by
    have := jsize_pos v
    simp only [jsizeO] at hf
    omega⟩
  have hwv : jsonWfB v = true ∧ jsonWfOB t = true := by
    simpa [jsonWfOB, Bool.and_eq_true] using hwo
  have hkey : ∀ T : List Char, parseStrBodyF ((escStr k.data ++ '"' :: T).length + 1)
      (escStr k.data ++ '"' :: T) = some (k.data, T) := by
    intro T
    apply pstr_esc
    have := escStr_len_ge k.data
    simp only [List.length_append, List.length_cons]
    omega
  cases t with
  | nil =>
    show pMembersF (g + 1) ((('"' :: (escStr k.data ++ ['"'])) ++ ':' :: ' ' :: dumpJson v) ++
      '}' :: rest) = _
    rw [show ((('"' :: (escStr k.data ++ ['"'])) ++ ':' :: ' ' :: dumpJson v) ++ '}' :: rest) =
        '"' :: (escStr k.data ++ '"' :: (':' :: ' ' :: (dumpJson v ++ '}' :: rest))) from by
      simp [List.append_assoc]]
    simp only [pMembersF]
    rw [hkey]
    simp only [Option.bind_eq_bind, Option.some_bind]
    simp only [skipWs_cons_not (show jsonWsC ':' = false by decide), skipWs_space,
      skipWs_dump v ('}' :: rest)]
    rw [pv_dump v g _ (by simp only [jsizeO] at hf; omega) hwv.1 (delimB_cons_rbrace rest)]
    simp [skipWs_cons_not (show jsonWsC '}' = false by decide), string_mk_data]
  | cons m2 t2 =>
    show pMembersF (g + 1) (((('"' :: (escStr k.data ++ ['"'])) ++ ':' :: ' ' :: dumpJson v) ++
      ',' :: ' ' :: dumpMembs (m2 :: t2)) ++ '}' :: rest) = _
    rw [show (((('"' :: (escStr k.data ++ ['"'])) ++ ':' :: ' ' :: dumpJson v) ++
          ',' :: ' ' :: dumpMembs (m2 :: t2)) ++ '}' :: rest) =
        '"' :: (escStr k.data ++ '"' :: (':' :: ' ' ::
          (dumpJson v ++ ',' :: ' ' :: (dumpMembs (m2 :: t2) ++ '}' :: rest)))) from by
      simp [List.append_assoc]]
    simp only [pMembersF]
    rw [hkey]
    simp only [Option.bind_eq_bind, Option.some_bind]
    simp only [skipWs_cons_not (show jsonWsC ':' = false by decide), skipWs_space,
      skipWs_dump v _]
    rw [pv_dump v g _ (by simp only [jsizeO] at hf; omega) hwv.1 (delimB_cons_comma _)]
    simp only [Option.bind_eq_bind, Option.some_bind]
    simp only [skipWs_cons_not (show jsonWsC ',' = false by decide), skipWs_space,
      skipWs_dumpMembs m2 t2 ('}' :: rest)]
    rw [pm_dump (m2 :: t2) g rest (by simp)
      (by simp only [jsizeO] at hf ⊢; have := jsize_pos v; omega) hwv.2]
    simp [string_mk_data]
end

mutual
theorem jsize_le_dumpLen (v : Json) : jsize v ≤ (dumpJson v).length := by
  cases v with
  | null => simp [jsize, dumpJson]
  | bool b => cases b <;> simp [jsize, dumpJson]
  | num q =>
    obtain ⟨c, cs, hc, _, _, _, _⟩ := dump_head (.num q)
    simp only [jsize, hc, List.length_cons]
    omega
  | str s => simp [jsize, dumpJson, quoteChars]
  | arr l =>
    have := jsizeL_le_dumpLen l
    simp only [jsize, dumpJson, List.length_cons, List.length_append]
    omega
  | obj m =>
    have := jsizeO_le_dumpLen m
    simp only [jsize, dumpJson, List.length_cons, List.length_append]
    omega
theorem jsizeL_le_dumpLen (l : List Json) : jsizeL l ≤ (dumpElems l).length + 1 := by
  match l with
  | [] => simp [jsizeL, dumpElems]
  | [x] =>
    have := jsize_le_dumpLen x
    simp only [jsizeL, dumpElems]
    omega
  | x :: y :: t =>
    have h1 := jsize_le_dumpLen x
    have h2 := jsizeL_le_dumpLen (y :: t)
    simp only [jsizeL, dumpElems, List.length_append, List.length_cons] at *
    omega
theorem jsizeO_le_dumpLen (m : List (String × Json)) : jsizeO m ≤ (dumpMembs m).length + 1 := by
  match m with
  | [] => simp [jsizeO, dumpMembs]
  | [(k, v)] =>
    have := jsize_le_dumpLen v
    simp only [jsizeO, dumpMembs, List.length_append, List.length_cons]
    omega
  | (k, v) :: m2 :: t =>
    have h1 := jsize_le_dumpLen v
    have h2 := jsizeO_le_dumpLen (m2 :: t)
    simp only [jsizeO, dumpMembs, List.length_append, List.length_cons] at *
    omega
end

/-- Round trip of the modelled `json` library: parsing the serialisation of
any embeddable value gives the value back. -/
theorem pyJsonLoads_pyJsonDumps (v : Json) (h : jsonWfB v = true) :
    pyJsonLoads (pyJsonDumps v) = some v := by
  show pyJsonLoads (String.mk (dumpJson v)) = some v
  unfold pyJsonLoads
  have hsk : skipWs (String.mk (dumpJson v)).data = dumpJson v := by
    show skipWs (dumpJson v) = dumpJson v
    obtain ⟨c, cs, hc, h1, _, _, _⟩ := dump_head v
    rw [hc, skipWs_cons_not h1]
  rw [hsk]
  have hpv := pv_dump v ((dumpJson v).length + 1) []
    (by have := jsize_le_dumpLen v; omega) h rfl
  rw [List.append_nil] at hpv
  dsimp only
  rw [hpv]
  rfl

/-! ## Python `str()` / `repr()` of JSON-like values

Used by the modelled code only in f-strings.  String `repr` is simplified
(single quotes, no escaping): the program only ever reprs values it placed
in messages itself, and no claim depends on repr of exotic strings. -/

mutual
def pyRepr : Json → String
  | .null => "None"
  | .bool true => "True"
  | .bool false => "False"
  | .num q => String.mk (numChars q)
  | .str s => "'" ++ s ++ "'"
  | .arr l => "[" ++ pyReprL l ++ "]"
  | .obj m => "\x7b" ++ pyReprO m ++ "\x7d"
def pyReprL : List Json → String
  | [] => ""
  | [x] => pyRepr x
  | x :: y :: t => pyRepr x ++ ", " ++ pyReprL (y :: t)
def pyReprO : List (String × Json) → String
  | [] => ""
  | [(k, v)] => "'" ++ k ++ "': " ++ pyRepr v
  | (k, v) :: m :: t => "'" ++ k ++ "': " ++ pyRepr v ++ ", " ++ pyReprO (m :: t)
end

/-- Python `str(x)` for the values reaching the modelled f-strings. -/
def pyStr (x : Json) : String :=
  match x with
  | .str s => s
  | _ => pyRepr x

/-! ## Regular-expression engine (Brzozowski derivatives)

Models Python `re.search` for the fixed patterns of the intent classifier.
Character classes are predicates; `\s` and `.` use their ASCII behaviour
(the classifier only receives ASCII queries). -/

inductive RE where
  | emp : RE
  | eps : RE
  | cls : (Char → Bool) → RE
  | alt : RE → RE → RE
  | cat : RE → RE → RE
  | star : RE → RE

def RE.nullable : RE → Bool
  | .emp => false
  | .eps => true
  | .cls _ => false
  | .alt a b => a.nullable || b.nullable
  | .cat a b => a.nullable && b.nullable
  | .star _ => true

/-- Smart `alt`: drops empty alternatives (keeps derivative terms small). -/
def altS : RE → RE → RE
  | .emp, b => b
  | a, .emp => a
  | a, b => .alt a b

/-- Smart `cat`: absorbs the empty and unit languages. -/
def catS : RE → RE → RE
  | .emp, _ => .emp
  | _, .emp => .emp
  | .eps, b => b
  | a, .eps => a
  | a, b => .cat a b

def RE.deriv : RE → Char → RE
  | .emp, _ => .emp
  | .eps, _ => .emp
  | .cls p, c => if p c then .eps else .emp
  | .alt a b, c => altS (a.deriv c) (b.deriv c)
  | .cat a b, c =>
    if a.nullable then altS (catS (a.deriv c) b) (b.deriv c) else catS (a.deriv c) b
  | .star a, c => catS (a.deriv c) (.star a)

def matchRE (r : RE) : List Char → Bool
  | [] => r.nullable
  | c :: cs => matchRE (r.deriv c) cs

def anyC : RE := .cls (fun _ => true)

/-- Python `.` (no DOTALL): any character except a newline. -/
def dotC : RE := .cls (fun c => c ≠ '\n')

def plusR (r : RE) : RE := .cat r (.star r)

def optR (r : RE) : RE := .alt r .eps

def litStr (s : String) : RE := s.data.foldr (fun c acc => .cat (.cls (· = c)) acc) .eps

def altL : List RE → RE
  | [] => .emp
  | [r] => r
  | r :: s :: t => .alt r (altL (s :: t))

def wordsR (ws : List String) : RE := altL (ws.map litStr)

/-- Python `\s` (ASCII portion). -/
def wsRE : RE :=
  .cls (fun c => c = ' ' || c = '\t' || c = '\n' || c = '\r' || c = '\x0b' || c = '\x0c')

/-- Python `re.search(r, s)`: `r` matches some contiguous part of `s`. -/
def searchB (r : RE) (s : String) : Bool :=
  matchRE (.cat (.star anyC) (.cat r (.star anyC))) s.data

/-! ## The rule-based intent classifier (`_analyze_query_intent_rule_based`) -/

/-- `r'(find|search|show me|look for)\s+(.*(groceries|food|products|items))'` -/
def reSearchProducts : RE :=
  .cat (wordsR ["find", "search", "show me", "look for"])
    (.cat (plusR wsRE) (.cat (.star dotC) (wordsR ["groceries", "food", "products", "items"])))

/-- `r'(healthy|health|nutrition|nutritious|recommend|suggest|diet|calories|vitamins)\s+(.*)'` -/
def reNutrition : RE :=
  .cat (wordsR ["healthy", "health", "nutrition", "nutritious", "recommend", "suggest", "diet",
    "calories", "vitamins"]) (.cat (plusR wsRE) (.star dotC))

/-- `r'(promotions|promo|deals|discounts|offers|sale|special)\s+(.*)'` -/
def rePromotions : RE :=
  .cat (wordsR ["promotions", "promo", "deals", "discounts", "offers", "sale", "special"])
    (.cat (plusR wsRE) (.star dotC))

/-- `[a-zA-Z0-9_-]` -/
def tokenC : RE := .cls (fun c => c.isAlphanum || c = '_' || c = '-')

/-- `r'(get|retrieve|show)\s+(product|item)\s+([a-zA-Z0-9_-]+)'` -/
def reGetProduct : RE :=
  .cat (wordsR ["get", "retrieve", "show"])
    (.cat (plusR wsRE) (.cat (wordsR ["product", "item"]) (.cat (plusR wsRE) (plusR tokenC))))

/-- `r'(list|show)\s+(me\s+)?(all\s+)?(indices|indexes|categories)'` -/
def reListCategories : RE :=
  .cat (wordsR ["list", "show"])
    (.cat (plusR wsRE)
      (.cat (optR (.cat (litStr "me") (plusR wsRE)))
        (.cat (optR (.cat (litStr "all") (plusR wsRE)))
          (wordsR ["indices", "indexes", "categories"]))))

/-- `r'(explore|discover|find indices|what indices|available data)\s+(.*)'` -/
def reIndexExplorer : RE :=
  .cat (wordsR ["explore", "discover", "find indices", "what indices", "available data"])
    (.cat (plusR wsRE) (.star dotC))

structure Rule where
  name : String
  keywords : List String
  action : String
  tool : String
  pattern : Option RE := none
  excludeKeywords : List String := []

structure Intent where
  intent : String
  action : String
  tool : String
  confidence : ℚ
  deriving DecidableEq

def searchProductsRule : Rule :=
  ⟨"search_products",
    ["find", "search", "show me", "look for", "groceries", "food", "products", "items",
      "catalog"],
    "search_products", "catalog_products_search", some reSearchProducts,
    ["indices", "indexes", "categories", "nutrition", "promotions"]⟩

def nutritionSearchRule : Rule :=
  ⟨"nutrition_search",
    ["healthy", "health", "nutrition", "nutritious", "recommend", "suggest", "good for",
      "diet", "calories", "vitamins"],
    "nutrition_search", "catalog_nutrition_search", some reNutrition, []⟩

def promotionsSearchRule : Rule :=
  ⟨"promotions_search",
    ["promotions", "promo", "deals", "discounts", "offers", "sale", "special"],
    "promotions_search", "catalog_promotions_search", some rePromotions, []⟩

def getProductRule : Rule :=
  ⟨"get_product",
    ["get product", "retrieve product", "show product", "product id", "id"],
    "get_product", "platform_core_get_document_by_id", some reGetProduct, []⟩

def basketAnalysisRule : Rule :=
  ⟨"basket_analysis",
    ["basket", "cart", "shopping list", "meal plan", "diet", "nutritional"],
    "analyze_basket", "catalog_products_search", none, []⟩

def listCategoriesRule : Rule :=
  ⟨"list_categories",
    ["indices", "indexes", "list indices", "show indices", "list all indices", "categories",
      "category", "list categories", "show categories", "types", "show me indices"],
    "list_categories", "platform_core_list_indices", some reListCategories, []⟩

def getSchemaRule : Rule :=
  ⟨"get_schema", ["schema", "structure", "fields", "mapping"],
    "get_schema", "platform_core_get_index_mapping", none, []⟩

def indexExplorerRule : Rule :=
  ⟨"index_explorer", ["explore", "discover", "find indices", "what indices", "available data"],
    "index_explorer", "platform_core_index_explorer", some reIndexExplorer, []⟩

/-- The `patterns` table, in dict insertion order. -/
def intentRules : List Rule :=
  [searchProductsRule, nutritionSearchRule, promotionsSearchRule, getProductRule,
    basketAnalysisRule, listCategoriesRule, getSchemaRule, indexExplorerRule]

/-- The keyword list of the per-rule confidence override. -/
def highPriorityKeywords : List String := ["indices", "indexes", "list indices", "show indices"]

/-- Candidates one rule contributes: keyword candidate (confidence
`min(0.6 + max_len/20, 0.95)`, overridden to `0.95` when the query mentions
indices), then a pattern candidate at `0.8`.  Keywords are tested against the
lower-cased query, the regex against the original. -/
def candidatesOf (uq : String) (r : Rule) : List Intent :=
  let q := pyLower uq
  if r.excludeKeywords.any (fun x => substrB x q) then []
  else
    let ms := r.keywords.filter (fun kw => substrB kw q)
    let kwC : List Intent :=
      if ms.isEmpty then []
      else
        let maxLen := (ms.map String.length).foldl max 0
        let conf := min ((3 : ℚ)/5 + (maxLen : ℚ)/20) (19/20)
        let conf := if highPriorityKeywords.any (fun k => substrB k q) then (19 : ℚ)/20 else conf
        [⟨r.name, r.action, r.tool, conf⟩]
    let patC : List Intent :=
      match r.pattern with
      | some p => if searchB p uq then [⟨r.name, r.action, r.tool, (4 : ℚ)/5⟩] else []
      | none => []
    kwC ++ patC

def defaultIntent : Intent :=
  ⟨"search_groceries", "search_groceries", "platform_core_search", 1/2⟩

/-- Python `max(candidates, key=lambda x: x['confidence'])`: first maximum. -/
def pickBest : List Intent → Intent
  | [] => defaultIntent
  | h :: t => t.foldl (fun b c => if b.confidence < c.confidence then c else b) h

def analyzeRuleBased (uq : String) : Intent :=
  pickBest (intentRules.flatMap (candidatesOf uq))

def intentToJson (i : Intent) : Json :=
  .obj [("intent", .str i.intent), ("action", .str i.action), ("tool", .str i.tool),
    ("confidence", .num i.confidence)]

/-! ## `parse_mcp_content_text` (src/core/mcp_client.py) -/

/-- First preference loop: a content block whose MIME-type-like field
contains "json" and has a string `text` body. -/
def mcpLoop1 : List Json → Except PyErr (Option Json)
  | [] => .ok none
  | item :: rest =>
    match item with
    | .obj kvs =>
      let m0 := (jLookup kvs "mimeType").getD .null
      let mime := if pyTruthy m0 then m0 else (jLookup kvs "mime").getD .null
      if pyTruthy mime && substrB "json" (pyLower (pyStr mime)) then
        match (jLookup kvs "text").getD .null with
        | .str s =>
          match pyJsonLoads s with
          | some v => .ok (some v)
          | none => .error .valueError
        | _ => mcpLoop1 rest
      else mcpLoop1 rest
    | _ => mcpLoop1 rest

/-- Second preference loop: a content block carrying a `json` field. -/
def mcpLoop2 : List Json → Except PyErr (Option Json)
  | [] => .ok none
  | item :: rest =>
    match item with
    | .obj kvs =>
      if (jLookup kvs "json").isSome then
        match (jLookup kvs "json").getD .null with
        | .obj o => .ok (some (.obj o))
        | .str s =>
          match pyJsonLoads s with
          | some v => .ok (some v)
          | none => .error .valueError
        | _ => mcpLoop2 rest
      else mcpLoop2 rest
    | _ => mcpLoop2 rest

def parseMcpAux (m : Json) : Except PyErr (Option Json) := do
  let content ← pyGetD m "content" (.arr [])
  match content with
  | .arr items =>
    if items.isEmpty then pure none
    else do
      match ← mcpLoop1 items with
      | some v => pure (some v)
      | none =>
        match ← mcpLoop2 items with
        | some v => pure (some v)
        | none =>
          match items with
          | first :: _ =>
            (match first with
             | .obj kvs =>
               match (jLookup kvs "text").getD .null with
               | .str s =>
                 (match pyJsonLoads s with
                  | some v => pure (some v)
                  | none => throw .valueError)
               | _ => pure none
             | _ => pure none)
          | [] => pure none
  | _ => pure none

/-- `parse_mcp_content_text`: any exception in the body is swallowed and
turned into `None` by the surrounding `try`/`except`. -/
def parseMcpContentText (mcp_result : Json) : Option Json :=
  match parseMcpAux mcp_result with
  | .ok r => r
  | .error _ => none

/-! ## `try_validate_search_payload` (src/core/schemas.py)

Models pydantic validation of `SearchPayload`/`SearchHit`/`HitData`/
`Reference` (all `extra="allow"`) composed with the `model_dump` that
`_enrich_search_results_with_content` applies to `validated.results`:
declared fields first (defaulting to `None`), then the extra fields. -/

def validateReference (j : Json) : Option Json :=
  match j with
  | .obj kvs =>
    let chk : Option Json → Option Json := fun x =>
      match x with
      | none => some .null
      | some .null => some .null
      | some (.str s) => some (.str s)
      | some _ => none
    match chk (jLookup kvs "id"), chk (jLookup kvs "index") with
    | some i, some x =>
      some (.obj (("id", i) :: ("index", x) ::
        kvs.filter (fun kv => !(kv.1 == "id" || kv.1 == "index"))))
    | _, _ => none
  | _ => none

def validateHitData (j : Json) : Option Json :=
  match j with
  | .obj kvs =>
    let refv :=
      match jLookup kvs "reference" with
      | none => some Json.null
      | some .null => some Json.null
      | some (.obj r) => validateReference (.obj r)
      | some _ => none
    let contv :=
      match jLookup kvs "content" with
      | none => some Json.null
      | some .null => some Json.null
      | some (.obj c) => some (.obj c)
      | some _ => none
    match refv, contv with
    | some rd, some cd =>
      some (.obj (("reference", rd) :: ("content", cd) ::
        kvs.filter (fun kv => !(kv.1 == "reference" || kv.1 == "content"))))
    | _, _ => none
  | _ => none

def validateSearchHit (j : Json) : Option Json :=
  match j with
  | .obj kvs =>
    let dv :=
      match jLookup kvs "data" with
      | none => some Json.null
      | some .null => some Json.null
      | some (.obj d) => validateHitData (.obj d)
      | some _ => none
    match dv with
    | some dd => some (.obj (("data", dd) :: kvs.filter (fun kv => !(kv.1 == "data"))))
    | none => none
  | _ => none

/-- `try_validate_search_payload(parsed)` then `[h.model_dump() for h in
validated.results]`; `none` when validation raises. -/
def tryValidateHits (payload : Json) : Option (List Json) :=
  match payload with
  | .obj kvs =>
    match jLookup kvs "results" with
    | none => some []
    | some (.arr hits) => hits.mapM validateSearchHit
    | some _ => none
  | _ => none

/-! ## `_enrich_search_results_with_content` (src/groceries/service.py) -/

/-- Python slicing `hits[:n]` followed by iteration: works on lists and
strings (yielding one-character strings), `TypeError` otherwise. -/
def pySliceIter (x : Json) (n : ℕ) : Except PyErr (List Json) :=
  match x with
  | .arr l => .ok (l.take n)
  | .str s => .ok ((s.data.take n).map (fun c => Json.str (String.mk [c])))
  | _ => .error .typeError

/-- The per-hit loop: hits lacking a truthy `data.reference.id`/`.index`
are skipped; each kept hit triggers a `get_document_by_id` call. -/
def enrichLoop (getDoc : Json → Json → Except PyErr Json) :
    List Json → Except PyErr (List Json)
  | [] => .ok []
  | hit :: rest => do
    let d ← pyGetD hit "data" (.obj [])
    let ref ← pyGetD d "reference" (.obj [])
    let doc_id ← pyGetD ref "id" .null
    let index_name ← pyGetD ref "index" .null
    if pyTruthy doc_id && pyTruthy index_name then do
      let doc_raw ← getDoc index_name doc_id
      let d2 ← pyGetD hit "data" (.obj [])
      let c2 ← pyGetD d2 "content" (.obj [])
      let hl ← pyGetD c2 "highlights" (.arr [])
      let tl ← enrichLoop getDoc rest
      pure (Json.obj [("id", doc_id), ("index", index_name),
        ("search_highlights", hl), ("full_content", doc_raw)] :: tl)
    else enrichLoop getDoc rest

def enrichModel (raw : Json) (getDoc : Json → Json → Except PyErr Json) (top_n : ℤ) :
    Except PyErr Json :=
  match parseMcpContentText raw with
  | none => .ok raw
  | some parsed =>
    if !pyTruthy parsed then .ok raw
    else do
      let hasRes ← pyContains parsed "results"
      if !hasRes then pure raw
      else do
        let hits ← (match tryValidateHits parsed with
          | some hs => pure (Json.arr hs)
          | none => pySubscript parsed "results")
        let sliced ← pySliceIter hits (max 0 top_n).toNat
        let eh ← enrichLoop getDoc sliced
        let th ← pyLen hits
        match raw with
        | .obj rkvs =>
          pure (.obj (jSet rkvs "enriched_content"
            (.obj [("total_hits", .num th), ("enriched_hits", .arr eh)])))
        | _ => .error .typeError

/-! ## `MCPClient._rpc` / `list_tools` / `call_tool` (src/core/mcp_client.py)

The HTTP transport (`requests`) is an oracle: for each attempt index it
yields a raised exception (connection error, non-2xx status raised by
`raise_for_status`, or a non-JSON body), an HTTP 429, or a parsed JSON
body.  `_rpc` posts `{"jsonrpc": "2.0", "id": 1, "method": method,
"params": params}` each attempt. -/

inductive TResp where
  | exn : TResp
  | throttled : TResp
  | ok : Json → TResp

inductive RpcErr where
  | mcpTransport : String → RpcErr
  | mcpProtocol : String → Json → RpcErr
  | mcpMissingResult : String → RpcErr
  | py : PyErr → RpcErr

/-- The retry loop: `attempt` is the 0-based attempt index, `rem` the number
of retries still allowed.  On a 429 or an exception with retries left the
loop sleeps and continues; on the last attempt it raises.  Returns the
parsed body (or `none` for the transport `MCPError`) and the number of
POSTs performed. -/
def rpcGo (t : ℕ → TResp) : ℕ → ℕ → Option Json × ℕ
  | attempt, 0 =>
    match t attempt with
    | .ok d => (some d, attempt + 1)
    | _ => (none, attempt + 1)
  | attempt, rem + 1 =>
    match t attempt with
    | .ok d => (some d, attempt + 1)
    | _ => rpcGo t (attempt + 1) rem

/-- The envelope checks after the loop: a top-level `error` raises
immediately; a missing `result` raises `MCPError` ("missing result"). -/
def rpcCheck (method : String) (d : Json) : Except RpcErr Json := do
  let he ← (pyContains d "error").mapError RpcErr.py
  if he then do
    let ev ← (pySubscript d "error").mapError RpcErr.py
    throw (.mcpProtocol method ev)
  else do
    let hr ← (pyContains d "result").mapError RpcErr.py
    if !hr then throw (.mcpMissingResult method)
    else (pySubscript d "result").mapError RpcErr.py

def rpcModel (t : ℕ → TResp) (method : String) (params : Option Json) :
    Except RpcErr Json × ℕ :=
  match rpcGo t 0 2 with
  | (none, n) => (.error (.mcpTransport method), n)
  | (some d, n) => (rpcCheck method d, n)

/-- `list_tools`: `self._rpc("tools/list")` then `result.get("tools", [])`. -/
def listToolsModel (t : ℕ → TResp) : Except RpcErr Json × ℕ :=
  match rpcModel t "tools/list" none with
  | (.ok res, n) => ((pyGetD res "tools" (.arr [])).mapError RpcErr.py, n)
  | (.error e, n) => (.error e, n)

/-- The tool-level error surfacing block of `call_tool` (the body of its
`try`; any exception inside leaves the result unchanged, which for this
total model only happens on a non-dict result). -/
def mungeToolError (name : String) (result : Json) : Json :=
  match result with
  | .obj kvs =>
    if pyTruthy ((jLookup kvs "isError").getD .null) then
      let content := (jLookup kvs "content").getD (.arr [])
      let msg : Json :=
        match content with
        | .arr (first :: _) =>
          (match first with
           | .obj fk =>
             let tv := (jLookup fk "text").getD .null
             if pyTruthy tv then tv else (jLookup fk "error").getD .null
           | _ => .null)
        | _ => .null
      if pyTruthy msg then
        .obj (jSet kvs "error" (.str ("Tool '" ++ name ++ "' error: " ++ pyStr msg)))
      else
        .obj (jSet kvs "error"
          (.str ("Tool '" ++ name ++ "' reported an error. Check arguments/permissions.")))
    else result
  | _ => result

def callToolModel (t : ℕ → TResp) (name : String) (args : Json) : Except RpcErr Json × ℕ :=
  match rpcModel t "tools/call" (some (.obj [("name", .str name), ("arguments", args)])) with
  | (.ok res, n) => (.ok (mungeToolError name res), n)
  | (.error e, n) => (.error e, n)

/-- The truthy message extracted from the first content block, if any
(specification-side characterisation used by the `call_tool` theorem). -/
def extractToolMsg (kvs : List (String × Json)) : Option Json :=
  match (jLookup kvs "content").getD (.arr []) with
  | .arr (first :: _) =>
    match first with
    | .obj fk =>
      let tv := (jLookup fk "text").getD .null
      let m := if pyTruthy tv then tv else (jLookup fk "error").getD .null
      if pyTruthy m then some m else none
    | _ => none
  | _ => none

/-! ## `execute` and its helpers (src/groceries/service.py)

The LLM is an external oracle.  The prompts are fixed functions of the
query (intent) and of the query and result summary (analysis), so the
composition of prompt building and `invoke_text` is modelled as an oracle
from those inputs to the reply text. -/

structure Settings where
  products_index : String := "products"
  character_limit : ℤ := 25000

/-- The tool invoker received by `execute` (an `MCPClient` or any injected
`ToolInvoker`): `call_tool(name, arguments)` and
`platform_core_get_document_by_id(index=…, id=…)` as used by enrichment. -/
structure Invoker where
  callTool : Json → Json → Except PyErr Json
  getDoc : Json → Json → Except PyErr Json

def SCHEMA_VERSION : String := "1.0.0"

def intentLLMFallback : Json :=
  .obj [("intent", .str "search_products"), ("action", .str "search_products"),
    ("tool", .str "catalog_products_search"), ("confidence", .num (1/2)),
    ("reasoning", .str "Fallback")]

/-- `all(k in data for k in ('intent', 'action', 'tool', 'confidence'))`. -/
def hasIntentKeys (d : Json) : Except PyErr Bool := do
  let a ← pyContains d "intent"
  if !a then pure false
  else do
    let b ← pyContains d "action"
    if !b then pure false
    else do
      let c ← pyContains d "tool"
      if !c then pure false
      else pyContains d "confidence"

/-- `_analyze_query_intent_with_llm`: cache lookup by the lower-cased
stripped query, then the LLM reply is scanned for its first `{` and last
`}`, the slice is parsed, and the parsed dict is returned when it has all
four intent keys; otherwise (or on any exception) the fixed fallback intent
is returned.  The cache write is not modelled (the cache is an input). -/
def analyzeWithLLM (cache : List (String × Json)) (resp : String → String) (q : String) :
    Json :=
  let key := pyStrip (pyLower q)
  match jLookup cache key with
  | some v => v
  | none =>
    let text := resp q
    match pyFindChar text '{' with
    | none => intentLLMFallback
    | some si =>
      let ei := (match pyRfindChar text '}' with | none => 0 | some i => i + 1)
      let slice := String.mk ((text.data.drop si).take (ei - si))
      match pyJsonLoads slice with
      | none => intentLLMFallback
      | some d =>
        match hasIntentKeys d with
        | .error _ => intentLLMFallback
        | .ok true => d
        | .ok false => intentLLMFallback

/-- Group 3 of `re.search(r'(get|retrieve|show)\s+(product|item)\s+([a-zA-Z0-9_-]+)', q)`
at one position: verb, whitespace run, product|item, whitespace run, then a
maximal identifier run.  The alternatives start with distinct characters,
so committed choice coincides with the regex backtracking. -/
def matchGetByIdAt (cs : List Char) : Option String :=
  (if ("get".data).isPrefixOf cs then some (cs.drop 3)
   else if ("retrieve".data).isPrefixOf cs then some (cs.drop 8)
   else if ("show".data).isPrefixOf cs then some (cs.drop 4)
   else none).bind fun r1 =>
    if (r1.takeWhile pyWsChar).isEmpty then none
    else
      let r2 := r1.dropWhile pyWsChar
      (if ("product".data).isPrefixOf r2 then some (r2.drop 7)
       else if ("item".data).isPrefixOf r2 then some (r2.drop 4)
       else none).bind fun r3 =>
        if (r3.takeWhile pyWsChar).isEmpty then none
        else
          let r4 := r3.dropWhile pyWsChar
          let tok := r4.takeWhile (fun c => c.isAlphanum || c = '_' || c = '-')
          if tok.isEmpty then none else some (String.mk tok)

/-- Leftmost match of the get-by-id pattern (`_args_get_by_id`). -/
def pyFindGetById : List Char → Option String
  | [] => none
  | c :: rest =>
    match matchGetByIdAt (c :: rest) with
    | some s => some s
    | none => pyFindGetById rest

/-- `_build_arguments` / `TOOL_ARG_BUILDERS`: dict lookup by tool name
(`TypeError` for unhashable keys), and the per-tool argument builders. -/
def buildArguments (toolJ : Json) (q idx : String) (limit offset : ℤ) :
    Except PyErr Json :=
  match toolJ with
  | .arr _ => .error .typeError
  | .obj _ => .error .typeError
  | .str s =>
    if s = "platform_core_search" then
      .ok (.obj [("query", .str q), ("index", .str idx), ("limit", .num (limit : ℚ)),
        ("offset", .num (offset : ℚ))])
    else if s = "catalog_products_search" || s = "catalog_nutrition_search" ||
        s = "catalog_promotions_search" then
      .ok (.obj [("nlQuery", .str q), ("limit", .num (limit : ℚ)),
        ("offset", .num (offset : ℚ))])
    else if s = "platform_core_get_document_by_id" then
      .ok (match pyFindGetById (pyLower q).data with
        | some i => .obj [("index", .str idx), ("id", .str i)]
        | none => .obj [])
    else if s = "platform_core_list_indices" then .ok (.obj [])
    else if s = "platform_core_get_index_mapping" then
      .ok (.obj [("indices", .arr [.str idx])])
    else if s = "platform_core_index_explorer" then
      .ok (.obj [("query", .str q), ("limit", .num (limit : ℚ)),
        ("offset", .num (offset : ℚ))])
    else .ok (.obj [])
  | _ => .ok (.obj [])

def contentActions : List String :=
  ["search_products", "nutrition_search", "promotions_search", "analyze_basket"]

/-- `intent['action'] in [...] or intent['tool'] == 'platform_core_search'`. -/
def contentSearchCheck (intentJ : Json) : Except PyErr Bool := do
  let a ← pySubscript intentJ "action"
  if contentActions.any (fun s => jsonEqStr a s) then pure true
  else do
    let t ← pySubscript intentJ "tool"
    pure (jsonEqStr t "platform_core_search")

/-- The two reads of the pagination `try` block:
`raw.get('enriched_content', {}).get('total_hits')` and
`len(raw.get('enriched_content', {}).get('enriched_hits', []))`. -/
def enrichedTotals (raw : Json) : Except PyErr (Json × ℤ) := do
  let e1 ← pyGetD raw "enriched_content" (.obj [])
  let t ← pyGetD e1 "total_hits" .null
  let e2 ← pyGetD raw "enriched_content" (.obj [])
  let eh ← pyGetD e2 "enriched_hits" (.arr [])
  let s ← pyLen eh
  pure (t, s)

/-- The pagination computation: a `try`/`except Exception: pass` around the
reads, then `has_more`/`next_offset` only when `total_hits` is an `int`. -/
def tryPagination (raw : Json) (limit offset : ℤ) : List (String × Json) :=
  let pag0 : List (String × Json) :=
    [("limit", .num (limit : ℚ)), ("offset", .num (offset : ℚ))]
  match enrichedTotals raw with
  | .error _ => pag0
  | .ok (t, s) =>
    if pyIsInt t then
      pag0 ++ [("has_more", .bool (decide (pyNumVal t > (offset : ℚ) + (s : ℚ)))),
        ("next_offset",
          if pyNumVal t > (offset : ℚ) + (s : ℚ) then .num ((offset : ℚ) + (s : ℚ))
          else .null)]
    else pag0

/-- Steps 1-4 of `execute`: intent, arguments, tool call, optional
enrichment and pagination. -/
def executeCore (cfg : Settings) (q : String) (useLLM : Bool) (limit offset top_n : ℤ)
    (inv : Invoker) (intentResp : String → String) (cache : List (String × Json)) :
    Except PyErr (Json × Json × List (String × Json)) := do
  let intentJ := if useLLM then analyzeWithLLM cache intentResp q
                 else intentToJson (analyzeRuleBased q)
  let toolJ ← pySubscript intentJ "tool"
  let args ← buildArguments toolJ q cfg.products_index limit offset
  let raw ← inv.callTool toolJ args
  let c ← contentSearchCheck intentJ
  if c then do
    let raw2 ← enrichModel raw inv.getDoc top_n
    pure (intentJ, raw2, tryPagination raw2 limit offset)
  else
    pure (intentJ, raw, [("limit", .num (limit : ℚ)), ("offset", .num (offset : ℚ))])

/-- The result envelope of step 5, before the truncation check. -/
def envelopeOf (q : String) (intentJ raw : Json) (pag : List (String × Json)) : Json :=
  .obj [("query", .str q), ("intent", intentJ), ("mcp_result", raw),
    ("pagination", .obj pag), ("schema_version", .str SCHEMA_VERSION)]

def truncationMessage (n : ℕ) (limit : ℤ) : String :=
  "Response length " ++ String.mk (natChars n) ++ " exceeds character limit " ++
    String.mk (intChars limit) ++ ". Consider using 'limit'/'offset' or adding filters."

/-- The truncation check: `json.dumps(out)` is measured against the
configured character limit; on overflow only flags are added, the payload
itself is kept. -/
def truncCheck (cfg : Settings) (out : Json) : Json :=
  let rendered := dumpJson out
  if (rendered.length : ℤ) > cfg.character_limit then
    match out with
    | .obj kvs =>
      .obj (jSet (jSet kvs "truncated" (.bool true)) "truncation_message"
        (.str (truncationMessage rendered.length cfg.character_limit)))
    | _ => out
  else out

/-- `execute`: the full orchestration.  `llm_analysis` is attached after
the truncation check, from the analysis oracle applied to the query and
the (possibly enriched) result. -/
def executeModel (cfg : Settings) (q : String) (useLLM : Bool) (limit offset top_n : ℤ)
    (inv : Invoker) (intentResp : String → String) (analysisResp : String → Json → String)
    (cache : List (String × Json)) : Except PyErr Json := do
  let (intentJ, raw, pag) ← executeCore cfg q useLLM limit offset top_n inv intentResp cache
  let out := truncCheck cfg (envelopeOf q intentJ raw pag)
  if useLLM then
    match out with
    | .obj kvs => pure (.obj (jSet kvs "llm_analysis" (.str (analysisResp q raw))))
    | _ => pure out
  else
    pure out
/-! ## Classifier support: substring, candidate and first-maximum lemmas -/

theorem substrB_iff {a b : String} : substrB a b = true ↔ a.data <:+: b.data := by
  show pyContains.List.isInfixChars a.data b.data = true ↔ _
  generalize a.data = n
  generalize b.data = h
  induction h with
  | nil =>
    simp only [pyContains.List.isInfixChars]
    constructor
    · intro hp
      simp only [Bool.or_false] at hp
      exact (List.isPrefixOf_iff_prefix.mp hp).isInfix
    · intro hi
      have := List.eq_nil_of_infix_nil hi
      subst this
      simp
  | cons x t ih =>
    simp only [pyContains.List.isInfixChars, Bool.or_eq_true]
    constructor
    · rintro (hp | ht)
      · exact (List.isPrefixOf_iff_prefix.mp hp).isInfix
      · exact List.infix_cons (ih.mp ht)
    · intro hi
      rcases hi with ⟨s, t', hst⟩
      cases s with
      | nil =>
        left
        exact List.isPrefixOf_iff_prefix.mpr ⟨t', by simpa using hst⟩
      | cons y ys =>
        right
        apply ih.mpr
        exact ⟨ys, t', by simpa using congrArg List.tail hst⟩

/-- A needle that is its own lower-casing survives lower-casing the haystack. -/
theorem substrB_lower {n h : String} (hn : pyLower n = n) (hs : substrB n h = true) :
    substrB n (pyLower h) = true := by
  rw [substrB_iff] at hs ⊢
  have hmap : n.data.map Char.toLower <:+: h.data.map Char.toLower := hs.map Char.toLower
  have hd : (pyLower h).data = h.data.map Char.toLower := rfl
  have hnd : n.data.map Char.toLower = n.data := congrArg String.data hn
  rw [hd, ← hnd]
  exact hmap

/-- All of a rule's keywords miss the lower-cased query. -/
def kwSilent (uq : String) (r : Rule) : Bool :=
  r.keywords.all (fun kw => !substrB kw (pyLower uq))

/-- The rule contributes no candidate at all: all keywords miss and the
pattern (if any) does not match. -/
def ruleInert (uq : String) (r : Rule) : Bool :=
  kwSilent uq r &&
    (match r.pattern with
     | some p => !searchB p uq
     | none => true)

theorem foldl_pick_keep (t : List Intent) : ∀ b : Intent,
    (∀ x ∈ t, x.confidence ≤ b.confidence) →
    t.foldl (fun b c => if b.confidence < c.confidence then c else b) b = b := by
  induction t with
  | nil => intro b _; rfl
  | cons h t ih =>
    intro b hb
    have h1 : ¬ b.confidence < h.confidence := not_lt.mpr (hb h (by simp))
    simp only [List.foldl_cons, if_neg h1]
    exact ih b (fun x hx => hb x (by simp [hx]))

theorem foldl_pick_lt {q : ℚ} (t : List Intent) : ∀ b : Intent,
    b.confidence < q → (∀ x ∈ t, x.confidence < q) →
    (t.foldl (fun b c => if b.confidence < c.confidence then c else b) b).confidence < q := by
  induction t with
  | nil => intro b hb _; exact hb
  | cons h t ih =>
    intro b hb ht
    simp only [List.foldl_cons]
    by_cases hc : b.confidence < h.confidence
    · rw [if_pos hc]
      exact ih h (ht h (by simp)) (fun x hx => ht x (by simp [hx]))
    · rw [if_neg hc]
      exact ih b hb (fun x hx => ht x (by simp [hx]))

/-- Python `max(..., key=...)` keeps the first maximum: a strictly-largest
element preceded only by strictly smaller ones and followed by no larger
ones is returned. -/
theorem pickBest_first_max (pre post : List Intent) (lc : Intent)
    (h1 : ∀ x ∈ pre, x.confidence < lc.confidence)
    (h2 : ∀ x ∈ post, x.confidence ≤ lc.confidence) :
    pickBest (pre ++ lc :: post) = lc := by
  cases pre with
  | nil =>
    simp only [List.nil_append, pickBest]
    exact foldl_pick_keep post lc h2
  | cons p ps =>
    simp only [List.cons_append, pickBest, List.foldl_append, List.foldl_cons]
    have hps : (ps.foldl (fun b c => if b.confidence < c.confidence then c else b) p).confidence
        < lc.confidence :=
      foldl_pick_lt ps p (h1 p (by simp)) (fun x hx => h1 x (by simp [hx]))
    rw [if_pos hps]
    exact foldl_pick_keep post lc h2

/-- The returned intent is the default or one of the candidates. -/
theorem pickBest_mem (l : List Intent) : pickBest l = defaultIntent ∨ pickBest l ∈ l := by
  cases l with
  | nil => left; rfl
  | cons h t =>
    right
    suffices H : ∀ (t : List Intent) (b : Intent) (s : List Intent), b ∈ s →
        (∀ x ∈ t, x ∈ s) →
        t.foldl (fun b c => if b.confidence < c.confidence then c else b) b ∈ s by
      exact H t h (h :: t) (by simp) (fun x hx => by simp [hx])
    intro t
    induction t with
    | nil => intro b s hb _; exact hb
    | cons y ys ih =>
      intro b s hb hs
      simp only [List.foldl_cons]
      by_cases hc : b.confidence < y.confidence
      · rw [if_pos hc]
        exact ih y s (hs y (by simp)) (fun x hx => hs x (by simp [hx]))
      · rw [if_neg hc]
        exact ih b s hb (fun x hx => hs x (by simp [hx]))

/-- Every candidate any rule produces has confidence in `[0, 19/20]`. -/
theorem candidatesOf_conf {uq : String} {r : Rule} {x : Intent}
    (hx : x ∈ candidatesOf uq r) : 0 ≤ x.confidence ∧ x.confidence ≤ 19/20 := by
  simp only [candidatesOf] at hx
  split at hx
  · simp at hx
  · rw [List.mem_append] at hx
    rcases hx with hk | hp
    · split at hk
      · simp at hk
      · rw [List.mem_singleton] at hk
        subst hk
        dsimp only
        split
        · norm_num
        · refine ⟨le_min (by positivity) (by norm_num), min_le_right _ _⟩
    · split at hp
      · split at hp
        · rw [List.mem_singleton] at hp
          subst hp
          norm_num
        · simp at hp
      · simp at hp

/-- A rule none of whose keywords fire contributes only pattern candidates,
all at confidence `4/5`. -/
theorem candidatesOf_silent {uq : String} {r : Rule} {x : Intent}
    (hs : kwSilent uq r = true) (hx : x ∈ candidatesOf uq r) : x.confidence = 4/5 := by
  simp only [kwSilent] at hs
  have hms : r.keywords.filter (fun kw => substrB kw (pyLower uq)) = [] := by
    rw [List.filter_eq_nil_iff]
    intro a ha
    have := List.all_eq_true.mp hs a ha
    simpa using this
  simp only [candidatesOf, hms] at hx
  split at hx
  · simp at hx
  · rw [List.mem_append] at hx
    rcases hx with hk | hp
    · simp at hk
    · split at hp
      · split at hp
        · rw [List.mem_singleton] at hp
          subst hp
          rfl
        · simp at hp
      · simp at hp

/-- An inert rule contributes no candidate. -/
theorem candidatesOf_inert {uq : String} {r : Rule}
    (h : ruleInert uq r = true) : candidatesOf uq r = [] := by
  simp only [ruleInert, kwSilent, Bool.and_eq_true] at h
  obtain ⟨hkw, hpat⟩ := h
  have hms : r.keywords.filter (fun kw => substrB kw (pyLower uq)) = [] := by
    rw [List.filter_eq_nil_iff]
    intro a ha
    simpa using List.all_eq_true.mp hkw a ha
  simp only [candidatesOf, hms]
  split
  · rfl
  · cases hp : r.pattern with
    | none => simp [hp]
    | some p =>
      rw [hp] at hpat
      simp only at hpat
      have hsf : searchB p uq = false := by simpa using hpat
      simp [hp, hsf]

/-- A rule whose keyword filter is non-empty, whose excludes all miss, while
one of the high-priority phrases is in the query, contributes the overridden
`19/20` keyword candidate first. -/
theorem candidatesOf_override {uq : String} {r : Rule}
    (hex : r.excludeKeywords.any (fun x => substrB x (pyLower uq)) = false)
    (hms : (r.keywords.filter (fun kw => substrB kw (pyLower uq))).isEmpty = false)
    (hhp : highPriorityKeywords.any (fun k => substrB k (pyLower uq)) = true) :
    ∃ tail, candidatesOf uq r =
      (⟨r.name, r.action, r.tool, (19 : ℚ)/20⟩ : Intent) :: tail ∧
      ∀ x ∈ tail, x.confidence ≤ 19/20 := by
  simp only [candidatesOf]
  rw [if_neg (by simp [hex]), if_neg (by simp [hms]), if_pos hhp]
  rw [List.singleton_append]
  refine ⟨_, rfl, ?_⟩
  intro x hx
  split at hx
  · split at hx
    · rw [List.mem_singleton] at hx
      subst hx
      norm_num
    · simp at hx
  · simp at hx

/-- C7: for every query string, the confidence returned by the rule-based
intent classifier `_analyze_query_intent_rule_based` lies in `[0, 0.95]`
(`0.95 = 19/20`): the default is `1/2`, keyword candidates are clamped by
`min(…, 0.95)` or overridden to exactly `0.95`, pattern candidates sit at
`0.8`. -/
theorem rule_based_confidence_in_unit_band (uq : String) :
    0 ≤ (analyzeRuleBased uq).confidence ∧ (analyzeRuleBased uq).confidence ≤ 19/20 := by
  have hm := pickBest_mem (intentRules.flatMap (candidatesOf uq))
  rcases hm with h | h
  · rw [analyzeRuleBased, h]
    constructor <;> norm_num [defaultIntent]
  · rw [List.mem_flatMap] at h
    obtain ⟨r, _, hx⟩ := h
    rw [analyzeRuleBased]
    exact candidatesOf_conf hx

/-- C8: a query for which every rule is inert (no keyword hit, no pattern
match) is classified as the default
`{search_groceries, platform_core_search, 0.5}`. -/
theorem rule_based_default_on_no_match (uq : String)
    (h : intentRules.all (ruleInert uq) = true) :
    analyzeRuleBased uq = defaultIntent := by
  have hnil : intentRules.flatMap (candidatesOf uq) = [] := by
    rw [List.flatMap_eq_nil_iff]
    intro r hr
    exact candidatesOf_inert (List.all_eq_true.mp h r hr)
  rw [analyzeRuleBased, hnil]
  rfl

theorem rule_based_default_on_no_match_witness :
    intentRules.all (ruleInert "zzzz") = true ∧ analyzeRuleBased "zzzz" = defaultIntent :=
  ⟨by decide, rule_based_default_on_no_match "zzzz" (by decide)⟩

/-- C1 counterexample: "healthy list indices" contains the exact phrase
"list indices", but the nutrition rule's keyword "healthy" also fires and is
likewise overridden to `0.95`; `max` keeps the first maximum, and the
nutrition rule precedes the list-categories rule in the dict, so the
returned action is `nutrition_search`, not `list_categories`. -/
theorem high_priority_phrase_counterexample :
    substrB "list indices" "healthy list indices" = true ∧
      (analyzeRuleBased "healthy list indices").action = "nutrition_search" ∧
      (analyzeRuleBased "healthy list indices").action ≠ "list_categories" := by
  refine ⟨by decide, by decide, by decide⟩

/-- C1 amended: if the query contains "list indices" and none of the
keywords of the four earlier rules that are not excluded by "indices"
(nutrition, promotions, get-product, basket-analysis) occur in it, the
classifier does return `list_categories` with confidence at least `0.95`. -/
theorem high_priority_phrase_selects_list_categories (uq : String)
    (h : substrB "list indices" uq = true)
    (h2 : kwSilent uq nutritionSearchRule = true)
    (h3 : kwSilent uq promotionsSearchRule = true)
    (h4 : kwSilent uq getProductRule = true)
    (h5 : kwSilent uq basketAnalysisRule = true) :
    (analyzeRuleBased uq).action = "list_categories" ∧
      (19 : ℚ)/20 ≤ (analyzeRuleBased uq).confidence := by
  have hlow : substrB "list indices" (pyLower uq) = true :=
    substrB_lower (by decide) h
  have hind : substrB "indices" (pyLower uq) = true :=
    substr_trans (by decide) hlow
  -- rule 1 is excluded by "indices"
  have he : searchProductsRule.excludeKeywords.any (fun x => substrB x (pyLower uq)) = true := by
    simp only [searchProductsRule, List.any_cons, Bool.or_eq_true]
    exact Or.inl hind
  have e1 : candidatesOf uq searchProductsRule = [] := by
    simp only [candidatesOf]
    rw [if_pos he]
  -- rule 6 produces the overridden candidate first
  have hx6 : listCategoriesRule.excludeKeywords.any (fun x => substrB x (pyLower uq)) = false := by
    simp [listCategoriesRule]
  have hms6 : (listCategoriesRule.keywords.filter
      (fun kw => substrB kw (pyLower uq))).isEmpty = false := by
    simp [listCategoriesRule, List.filter_cons, hind]
  have hhp : highPriorityKeywords.any (fun k => substrB k (pyLower uq)) = true := by
    simp only [highPriorityKeywords, List.any_cons, Bool.or_eq_true]
    exact Or.inl hind
  obtain ⟨tail, h6eq, h6post⟩ := candidatesOf_override hx6 hms6 hhp
  have hshape : intentRules.flatMap (candidatesOf uq) =
      (candidatesOf uq nutritionSearchRule ++ (candidatesOf uq promotionsSearchRule ++
        (candidatesOf uq getProductRule ++ candidatesOf uq basketAnalysisRule))) ++
      (⟨listCategoriesRule.name, listCategoriesRule.action, listCategoriesRule.tool,
        (19 : ℚ)/20⟩ : Intent) ::
      (tail ++ (candidatesOf uq getSchemaRule ++ candidatesOf uq indexExplorerRule)) := by
    simp only [intentRules, List.flatMap_cons, List.flatMap_nil, List.append_nil]
    rw [e1, List.nil_append, h6eq]
    simp only [List.cons_append, List.append_assoc, List.nil_append]
  have hpre : ∀ x ∈ (candidatesOf uq nutritionSearchRule ++
      (candidatesOf uq promotionsSearchRule ++
        (candidatesOf uq getProductRule ++ candidatesOf uq basketAnalysisRule))),
      x.confidence < (⟨listCategoriesRule.name, listCategoriesRule.action,
        listCategoriesRule.tool, (19 : ℚ)/20⟩ : Intent).confidence := by
    intro x hx
    have h45 : x.confidence = 4/5 := by
      rcases List.mem_append.mp hx with hxx | hx
      · exact candidatesOf_silent h2 hxx
      rcases List.mem_append.mp hx with hxx | hx
      · exact candidatesOf_silent h3 hxx
      rcases List.mem_append.mp hx with hxx | hxx
      · exact candidatesOf_silent h4 hxx
      · exact candidatesOf_silent h5 hxx
    rw [h45]
    norm_num
  have hpost : ∀ x ∈ (tail ++ (candidatesOf uq getSchemaRule ++
      candidatesOf uq indexExplorerRule)),
      x.confidence ≤ (⟨listCategoriesRule.name, listCategoriesRule.action,
        listCategoriesRule.tool, (19 : ℚ)/20⟩ : Intent).confidence := by
    intro x hx
    rcases List.mem_append.mp hx with hxx | hx
    · exact h6post x hxx
    rcases List.mem_append.mp hx with hxx | hxx
    · exact (candidatesOf_conf hxx).2
    · exact (candidatesOf_conf hxx).2
  have hmain : analyzeRuleBased uq =
      ⟨listCategoriesRule.name, listCategoriesRule.action, listCategoriesRule.tool,
        (19 : ℚ)/20⟩ := by
    rw [analyzeRuleBased, hshape]
    exact pickBest_first_max _ _ _ hpre hpost
  rw [hmain]
  exact ⟨rfl, le_refl _⟩

theorem high_priority_phrase_selects_list_categories_witness :
    (substrB "list indices" "list indices" = true ∧
      kwSilent "list indices" nutritionSearchRule = true ∧
      kwSilent "list indices" promotionsSearchRule = true ∧
      kwSilent "list indices" getProductRule = true ∧
      kwSilent "list indices" basketAnalysisRule = true) ∧
    (analyzeRuleBased "list indices").action = "list_categories" ∧
      (19 : ℚ)/20 ≤ (analyzeRuleBased "list indices").confidence :=
  ⟨⟨by decide, by decide, by decide, by decide, by decide⟩,
    high_priority_phrase_selects_list_categories "list indices"
      (by decide) (by decide) (by decide) (by decide) (by decide)⟩
/-! ## MCP client claims: missing `result` (C4) and tool-level errors (C5) -/

theorem rpcGo_succ (t : ℕ → TResp) (attempt rem : ℕ) :
    rpcGo t attempt (rem + 1) =
      (match t attempt with
       | .ok d => (some d, attempt + 1)
       | _ => rpcGo t (attempt + 1) rem) := rfl

/-- C4 counterexample: a transport whose every response is a well-formed
JSON body without `result` (and without `error`): the missing-result
`MCPError` is raised directly after the first successful POST — the retry
loop is left by `break`, so nothing is retried for this failure mode
(1 attempt, not 3). -/
theorem missing_result_counterexample :
    listToolsModel (fun _ => .ok (.obj [("jsonrpc", .str "2.0"), ("id", .num 1)])) =
      (.error (.mcpMissingResult "tools/list"), 1) ∧
    callToolModel (fun _ => .ok (.obj [("jsonrpc", .str "2.0"), ("id", .num 1)]))
        "ping" (.obj []) =
      (.error (.mcpMissingResult "tools/call"), 1) ∧
    (1 : ℕ) ≠ 3 :=
  ⟨rfl, rfl, by decide⟩

/-- C4 amended: when the first POST already yields a parsed body with
neither an `error` key nor a `result` key, both `list_tools` and
`call_tool` raise the missing-result `MCPError` — they never return an
empty success — and they do so after exactly one POST (no retries are
spent on a missing `result`). -/
theorem missing_result_raises (t : ℕ → TResp) (kvs : List (String × Json))
    (h0 : t 0 = .ok (.obj kvs))
    (he : jLookup kvs "error" = none)
    (hr : jLookup kvs "result" = none) :
    (∀ name args, callToolModel t name args = (.error (.mcpMissingResult "tools/call"), 1)) ∧
    listToolsModel t = (.error (.mcpMissingResult "tools/list"), 1) := by
  have hgo : rpcGo t 0 2 = (some (.obj kvs), 1) := by
    rw [show (2 : ℕ) = 1 + 1 from rfl, rpcGo_succ, h0]
  have hcheck : ∀ method, rpcCheck method (.obj kvs) = .error (.mcpMissingResult method) := by
    intro method
    simp only [rpcCheck, pyContains, he, hr]
    rfl
  have hrpc : ∀ (method : String) (params : Option Json),
      rpcModel t method params = (.error (.mcpMissingResult method), 1) := by
    intro method params
    unfold rpcModel
    rw [hgo]
    simp only [hcheck]
  constructor
  · intro name args
    unfold callToolModel
    rw [hrpc]
  · unfold listToolsModel
    rw [hrpc]

theorem missing_result_raises_witness :
    ((fun _ => TResp.ok (.obj [("jsonrpc", .str "2.0")]) : ℕ → TResp) 0 =
        .ok (.obj [("jsonrpc", .str "2.0")]) ∧
      jLookup [("jsonrpc", Json.str "2.0")] "error" = none ∧
      jLookup [("jsonrpc", Json.str "2.0")] "result" = none) ∧
    callToolModel (fun _ => .ok (.obj [("jsonrpc", .str "2.0")])) "ping" (.obj []) =
      (.error (.mcpMissingResult "tools/call"), 1) ∧
    listToolsModel (fun _ => .ok (.obj [("jsonrpc", .str "2.0")])) =
      (.error (.mcpMissingResult "tools/list"), 1) :=
  ⟨⟨rfl, rfl, rfl⟩,
    (missing_result_raises (fun _ => .ok (.obj [("jsonrpc", .str "2.0")])) _
      rfl rfl rfl).1 "ping" (.obj []),
    (missing_result_raises (fun _ => .ok (.obj [("jsonrpc", .str "2.0")])) _
      rfl rfl rfl).2⟩

theorem pyTruthy_null : pyTruthy Json.null = false := rfl

/-- `call_tool`'s error-surfacing block, characterised through
`extractToolMsg`: with a truthy `isError` the result's `error` key is set
to the message of the first content block when one is extractable, and to
the generic fallback otherwise. -/
theorem mungeToolError_isError (name : String) (kvs : List (String × Json))
    (hie : pyTruthy ((jLookup kvs "isError").getD .null) = true) :
    mungeToolError name (.obj kvs) =
      .obj (jSet kvs "error" (.str (match extractToolMsg kvs with
        | some m => "Tool '" ++ name ++ "' error: " ++ pyStr m
        | none => "Tool '" ++ name ++ "' reported an error. Check arguments/permissions."))) := by
  cases hc : (jLookup kvs "content").getD (.arr []) with
  | arr items =>
    cases items with
    | nil => simp [mungeToolError, extractToolMsg, pyTruthy_null, hie, hc]
    | cons first rest =>
      cases first with
      | obj fk =>
        by_cases htv : pyTruthy ((jLookup fk "text").getD .null) = true
        · simp [mungeToolError, extractToolMsg, pyTruthy_null, hie, hc, htv]
        · rw [Bool.not_eq_true] at htv
          by_cases herr : pyTruthy ((jLookup fk "error").getD .null) = true
          · simp [mungeToolError, extractToolMsg, pyTruthy_null, hie, hc, htv, herr]
          · rw [Bool.not_eq_true] at herr
            simp [mungeToolError, extractToolMsg, pyTruthy_null, hie, hc, htv, herr]
      | null => simp [mungeToolError, extractToolMsg, pyTruthy_null, hie, hc]
      | bool b => simp [mungeToolError, extractToolMsg, pyTruthy_null, hie, hc]
      | num q => simp [mungeToolError, extractToolMsg, pyTruthy_null, hie, hc]
      | str s => simp [mungeToolError, extractToolMsg, pyTruthy_null, hie, hc]
      | arr l => simp [mungeToolError, extractToolMsg, pyTruthy_null, hie, hc]
  | null => simp [mungeToolError, extractToolMsg, pyTruthy_null, hie, hc]
  | bool b => simp [mungeToolError, extractToolMsg, pyTruthy_null, hie, hc]
  | num q => simp [mungeToolError, extractToolMsg, pyTruthy_null, hie, hc]
  | str s => simp [mungeToolError, extractToolMsg, pyTruthy_null, hie, hc]
  | obj o => simp [mungeToolError, extractToolMsg, pyTruthy_null, hie, hc]

/-- C5: when the JSON-RPC call for `tools/call` succeeds and the result
carries a truthy `isError` flag, `call_tool` returns (does not raise) that
result with its `error` key set to the message extracted from the first
content block, or to the generic "reported an error" fallback when no
message is extractable. -/
theorem call_tool_surfaces_tool_error (t : ℕ → TResp) (name : String) (args : Json)
    (kvs : List (String × Json)) (n : ℕ)
    (h : rpcModel t "tools/call"
        (some (.obj [("name", .str name), ("arguments", args)])) = (.ok (.obj kvs), n))
    (hie : pyTruthy ((jLookup kvs "isError").getD .null) = true) :
    callToolModel t name args =
      (.ok (.obj (jSet kvs "error" (.str (match extractToolMsg kvs with
        | some m => "Tool '" ++ name ++ "' error: " ++ pyStr m
        | none =>
          "Tool '" ++ name ++ "' reported an error. Check arguments/permissions.")))), n) := by
  unfold callToolModel
  rw [h]
  simp only
  rw [mungeToolError_isError name kvs hie]

def c5Kvs : List (String × Json) :=
  [("isError", .bool true),
    ("content", .arr [.obj [("type", .str "text"), ("text", .str "boom")]])]

theorem call_tool_surfaces_tool_error_witness :
    (rpcModel (fun _ => .ok (.obj [("result", .obj c5Kvs)])) "tools/call"
        (some (.obj [("name", .str "ping"), ("arguments", .obj [])])) =
        (.ok (.obj c5Kvs), 1) ∧
      pyTruthy ((jLookup c5Kvs "isError").getD .null) = true) ∧
    callToolModel (fun _ => .ok (.obj [("result", .obj c5Kvs)])) "ping" (.obj []) =
      (.ok (.obj (jSet c5Kvs "error" (.str (match extractToolMsg c5Kvs with
        | some m => "Tool '" ++ "ping" ++ "' error: " ++ pyStr m
        | none =>
          "Tool '" ++ "ping" ++ "' reported an error. Check arguments/permissions.")))), 1) :=
  ⟨⟨rfl, rfl⟩,
    call_tool_surfaces_tool_error (fun _ => .ok (.obj [("result", .obj c5Kvs)]))
      "ping" (.obj []) c5Kvs 1 rfl rfl⟩
/-! ## Except-monad computation lemmas and claims C6, C9 -/

theorem except_bind_ok {ε α β : Type} (a : α) (f : α → Except ε β) :
    ((Except.ok a : Except ε α) >>= f) = f a := rfl

theorem except_bind_error {ε α β : Type} (e : ε) (f : α → Except ε β) :
    ((Except.error e : Except ε α) >>= f) = Except.error e := rfl

theorem except_pure_eq {ε α : Type} (a : α) : (pure a : Except ε α) = Except.ok a := rfl

theorem except_mapError_ok {ε ε2 α : Type} (f : ε → ε2) (a : α) :
    (Except.ok a : Except ε α).mapError f = .ok a := rfl

theorem except_mapError_error {ε ε2 α : Type} (f : ε → ε2) (e : ε) :
    (Except.error e : Except ε α).mapError f = .error (f e) := rfl

/-- C6: for every JSON-serializable mapping `m` (well-formed object: no
duplicate keys, integer numbers) and every non-empty MIME string containing
"json", parsing a tool result whose single content block carries that MIME
type and `json.dumps(m)` as text returns exactly `m`. -/
theorem parse_mcp_json_mime_roundtrip (m : List (String × Json)) (mt : String)
    (hwf : jsonWfB (.obj m) = true)
    (hmt : pyTruthy (.str mt) = true)
    (hj : substrB "json" (pyLower mt) = true) :
    parseMcpContentText (.obj [("content", .arr [.obj
      [("mimeType", .str mt), ("text", .str (pyJsonDumps (.obj m)))]])]) = some (.obj m) := by
  have hload := pyJsonLoads_pyJsonDumps (.obj m) hwf
  have hloop : mcpLoop1 [.obj [("mimeType", .str mt),
      ("text", .str (pyJsonDumps (.obj m)))]] = .ok (some (.obj m)) := by
    simp [mcpLoop1, jLookup, pyStr, hmt, hj, hload]
  have haux : parseMcpAux (.obj [("content", .arr [.obj [("mimeType", .str mt),
      ("text", .str (pyJsonDumps (.obj m)))]])]) = .ok (some (.obj m)) := by
    unfold parseMcpAux
    simp [pyGetD, jLookup, except_bind_ok, except_pure_eq, hloop]
  unfold parseMcpContentText
  rw [haux]

theorem parse_mcp_json_mime_roundtrip_witness :
    (jsonWfB (.obj [("a", Json.num 1)]) = true ∧
      pyTruthy (.str "application/json") = true ∧
      substrB "json" (pyLower "application/json") = true) ∧
    parseMcpContentText (.obj [("content", .arr [.obj
      [("mimeType", .str "application/json"),
       ("text", .str (pyJsonDumps (.obj [("a", Json.num 1)])))]])]) =
      some (.obj [("a", Json.num 1)]) :=
  ⟨⟨by decide, by decide, by decide⟩,
    parse_mcp_json_mime_roundtrip [("a", Json.num 1)] "application/json"
      (by decide) (by decide) (by decide)⟩

def c9Fixture : Json := .obj [("content", .arr [.obj [("mimeType", .str "application/json"),
  ("text", .str "5")]])]

/-- C9 counterexample: the single content block parses to the integer `5`;
the payload is truthy but not a dict, so `'results' in payload` raises
`TypeError` — the enricher raises instead of returning the original result
unmodified. -/
theorem enrich_typeerror_counterexample :
    parseMcpContentText c9Fixture = some (.num 5) ∧
    enrichModel c9Fixture (fun _ _ => .ok .null) 5 = .error .typeError := ⟨rfl, rfl⟩

/-- C9 amended: the enricher returns the original result unmodified when
the content is unparsable (`None` payload), when the payload is falsy, or
when the payload is a value in which the `in` test succeeds and reports no
`results` key.  (A truthy non-dict payload instead raises `TypeError`.) -/
theorem enrich_noop_on_unusable_payload (raw : Json) (getDoc : Json → Json → Except PyErr Json)
    (k : ℤ)
    (h : parseMcpContentText raw = none ∨
      (∃ p, parseMcpContentText raw = some p ∧ pyTruthy p = false) ∨
      (∃ p, parseMcpContentText raw = some p ∧ pyContains p "results" = .ok false)) :
    enrichModel raw getDoc k = .ok raw := by
  unfold enrichModel
  rcases h with h | ⟨p, hp, ht⟩ | ⟨p, hp, hc⟩
  · rw [h]
  · rw [hp]
    simp [ht]
  · rw [hp]
    by_cases ht : pyTruthy p = true
    · simp [ht, hc, except_bind_ok, except_pure_eq]
    · rw [Bool.not_eq_true] at ht
      simp [ht]

def c9Benign : Json := .obj [("content", .arr [.obj [("text", .str "\x7b\x7d")]])]

theorem enrich_noop_on_unusable_payload_witness :
    (parseMcpContentText c9Benign = none ∨
      (∃ p, parseMcpContentText c9Benign = some p ∧ pyTruthy p = false) ∨
      (∃ p, parseMcpContentText c9Benign = some p ∧ pyContains p "results" = .ok false)) ∧
    enrichModel c9Benign (fun _ _ => .ok .null) 3 = .ok c9Benign :=
  ⟨Or.inr (Or.inl ⟨.obj [], rfl, rfl⟩),
    enrich_noop_on_unusable_payload c9Benign (fun _ _ => .ok .null) 3
      (Or.inr (Or.inl ⟨.obj [], rfl, rfl⟩))⟩
/-! ## Enrichment counting (C3) -/

theorem option_bind_some {α β : Type} (a : α) (f : α → Option β) :
    ((some a : Option α) >>= f) = f a := rfl

theorem option_bind_none {α β : Type} (f : α → Option β) :
    ((none : Option α) >>= f) = none := rfl

theorem option_pure_eq {α : Type} (a : α) : (pure a : Option α) = some a := rfl

theorem mapM_option_length {α β : Type} (f : α → Option β) :
    ∀ (l : List α) (r : List β), l.mapM f = some r → r.length = l.length := by
  intro l
  induction l with
  | nil =>
    intro r h
    rw [List.mapM_nil, option_pure_eq] at h
    injection h with h
    subst h
    rfl
  | cons a t ih =>
    intro r h
    rw [List.mapM_cons] at h
    cases hf : f a with
    | none =>
      simp only [hf, option_bind_none] at h
      exact Option.noConfusion h
    | some b =>
      simp only [hf, option_bind_some] at h
      cases hm : t.mapM f with
      | none =>
        simp only [hm, option_bind_none] at h
        exact Option.noConfusion h
      | some bs =>
        simp only [hm, option_bind_some, option_pure_eq] at h
        injection h with h
        subst h
        simp [ih bs hm]

theorem jLookup_jSet_self (kvs : List (String × Json)) (k : String) (v : Json) :
    jLookup (jSet kvs k v) k = some v := by
  induction kvs with
  | nil => simp [jSet, jLookup]
  | cons p t ih =>
    obtain ⟨k2, v2⟩ := p
    by_cases hk : k2 = k
    · subst hk
      simp [jSet, jLookup]
    · simp [jSet, jLookup, hk, ih]

/-- The kept-hit test of the per-hit enrichment loop: a truthy
`data.reference.id` and a truthy `data.reference.index`. -/
def hitKeep (hit : Json) : Bool :=
  match pyGetD hit "data" (.obj []) with
  | .error _ => false
  | .ok d =>
    match pyGetD d "reference" (.obj []) with
    | .error _ => false
    | .ok ref =>
      match pyGetD ref "id" .null, pyGetD ref "index" .null with
      | .ok i, .ok ix => pyTruthy i && pyTruthy ix
      | _, _ => false

/-- The `enriched_hits` list of an enriched result. -/
def enrichedHitsOf (out : Json) : Option (List Json) :=
  match out with
  | .obj kvs =>
    match jLookup kvs "enriched_content" with
    | some (.obj e) =>
      match jLookup e "enriched_hits" with
      | some (.arr l) => some l
      | _ => none
    | _ => none
  | _ => none

/-- A successful enrichment loop returns one record per kept hit, and every
record is `{id, index, search_highlights, full_content}` with truthy id and
index. -/
theorem enrichLoop_ok_spec (getDoc : Json → Json → Except PyErr Json) :
    ∀ (l eh : List Json), enrichLoop getDoc l = .ok eh →
      eh.length = l.countP hitKeep ∧
      ∀ x ∈ eh, ∃ i ix hlj fc, x = .obj [("id", i), ("index", ix),
        ("search_highlights", hlj), ("full_content", fc)] ∧
        pyTruthy i = true ∧ pyTruthy ix = true := by
  intro l
  induction l with
  | nil =>
    intro eh h
    simp only [enrichLoop] at h
    injection h with h
    subst h
    exact ⟨rfl, by simp⟩
  | cons hit rest ih =>
    intro eh h
    unfold enrichLoop at h
    cases h1 : pyGetD hit "data" (.obj []) with
    | error e =>
      simp only [h1, except_bind_error] at h
      exact Except.noConfusion h
    | ok d =>
      simp only [h1, except_bind_ok] at h
      cases h2 : pyGetD d "reference" (.obj []) with
      | error e =>
        simp only [h2, except_bind_error] at h
        exact Except.noConfusion h
      | ok ref =>
        simp only [h2, except_bind_ok] at h
        cases h3 : pyGetD ref "id" .null with
        | error e =>
          simp only [h3, except_bind_error] at h
          exact Except.noConfusion h
        | ok doc_id =>
          simp only [h3, except_bind_ok] at h
          cases h4 : pyGetD ref "index" .null with
          | error e =>
            simp only [h4, except_bind_error] at h
            exact Except.noConfusion h
          | ok index_name =>
            simp only [h4, except_bind_ok] at h
            have hkeep : hitKeep hit = (pyTruthy doc_id && pyTruthy index_name) := by
              simp only [hitKeep, h1, h2, h3, h4]
            by_cases h5 : (pyTruthy doc_id && pyTruthy index_name) = true
            · rw [if_pos h5] at h
              cases h6 : getDoc index_name doc_id with
              | error e =>
                simp only [h6, except_bind_error] at h
                exact Except.noConfusion h
              | ok doc_raw =>
                simp only [h6, except_bind_ok, h1] at h
                cases h8 : pyGetD d "content" (.obj []) with
                | error e =>
                  simp only [h8, except_bind_error] at h
                  exact Except.noConfusion h
                | ok c2 =>
                  simp only [h8, except_bind_ok] at h
                  cases h9 : pyGetD c2 "highlights" (.arr []) with
                  | error e =>
                    simp only [h9, except_bind_error] at h
                    exact Except.noConfusion h
                  | ok hlv =>
                    simp only [h9, except_bind_ok] at h
                    cases h10 : enrichLoop getDoc rest with
                    | error e =>
                      simp only [h10, except_bind_error] at h
                      exact Except.noConfusion h
                    | ok tl =>
                      simp only [h10, except_bind_ok, except_pure_eq] at h
                      injection h with h
                      subst h
                      obtain ⟨hlen, hmem⟩ := ih tl h10
                      have hkt : hitKeep hit = true := by rw [hkeep]; exact h5
                      constructor
                      · rw [List.countP_cons_of_pos _ _ hkt]
                        simp [hlen]
                      · intro x hx
                        rcases List.mem_cons.mp hx with hx | hx
                        · subst hx
                          rw [Bool.and_eq_true] at h5
                          exact ⟨doc_id, index_name, hlv, doc_raw, rfl, h5.1, h5.2⟩
                        · exact hmem x hx
            · rw [if_neg h5] at h
              obtain ⟨hlen, hmem⟩ := ih eh h
              have hkf : ¬hitKeep hit = true := by rw [hkeep]; exact h5
              constructor
              · rw [List.countP_cons_of_neg _ _ hkf]
                exact hlen
              · exact hmem

/-- C3 counterexample: a payload with one hit (`N = 1`) whose reference has
no id/index, `top_n = 5`: the hit is skipped, so the enriched output holds
0 enriched hits, not `min(1, 5) = 1`. -/
theorem enriched_hits_count_counterexample :
    (∃ out, enrichModel (.obj [("content", .arr [.obj
        [("mimeType", .str "application/json"),
         ("text", .str (pyJsonDumps (.obj [("results", .arr
           [.obj [("data", .obj [("reference", .obj [])])]])])))]])])
        (fun _ _ => .ok (.obj [("found", .bool true)])) 5 = .ok out ∧
      (enrichedHitsOf out).map List.length = some 0) ∧
    min 1 5 ≠ 0 :=
  ⟨⟨_, rfl, rfl⟩, by decide⟩

/-- C3 amended: for a truthy parsed payload whose `results` key holds a
list of hits that all validate, a successful enrichment holds exactly one
enriched hit per kept hit (truthy `data.reference.id` and `.index`) among
the first `k`; in particular their number is at most `min(N, k)`, and every
enriched hit carries a truthy id and a truthy index. -/
theorem enriched_hits_bounded (raw : Json) (getDoc : Json → Json → Except PyErr Json)
    (k : ℤ) (pkvs : List (String × Json)) (hs0 rs : List Json) (out : Json) (hl : List Json)
    (hk : 0 ≤ k)
    (hp : parseMcpContentText raw = some (.obj pkvs))
    (htr : pyTruthy (.obj pkvs) = true)
    (hres : jLookup pkvs "results" = some (.arr hs0))
    (hv : hs0.mapM validateSearchHit = some rs)
    (hout : enrichModel raw getDoc k = .ok out)
    (hhl : enrichedHitsOf out = some hl) :
    hl.length = (rs.take k.toNat).countP hitKeep ∧
    hl.length ≤ min hs0.length k.toNat ∧
    ∀ x ∈ hl, ∃ i ix hlj fc, x = .obj [("id", i), ("index", ix),
      ("search_highlights", hlj), ("full_content", fc)] ∧
      pyTruthy i = true ∧ pyTruthy ix = true := by
  have hmax : max 0 k = k := max_eq_right hk
  unfold enrichModel at hout
  rw [hp] at hout
  have hff : ¬(false = true) := by simp
  simp only [htr, Bool.not_true] at hout
  rw [if_neg hff] at hout
  have hcon : pyContains (.obj pkvs) "results" = .ok true := by
    simp [pyContains, hres]
  simp only [hcon, except_bind_ok, Bool.not_true] at hout
  rw [if_neg hff] at hout
  have hval : tryValidateHits (.obj pkvs) = some rs := by
    simp only [tryValidateHits, hres]
    exact hv
  rw [hval] at hout
  simp only [except_pure_eq, except_bind_ok] at hout
  rw [show pySliceIter (Json.arr rs) (max 0 k).toNat =
    .ok (rs.take (max 0 k).toNat) from rfl] at hout
  simp only [except_bind_ok] at hout
  cases h6 : enrichLoop getDoc (rs.take (max 0 k).toNat) with
  | error e =>
    simp only [h6, except_bind_error] at hout
    exact Except.noConfusion hout
  | ok eh =>
    simp only [h6, except_bind_ok] at hout
    rw [show pyLen (Json.arr rs) = .ok (rs.length : ℤ) from rfl] at hout
    simp only [except_bind_ok] at hout
    cases raw with
    | obj rkvs =>
      simp only [except_pure_eq] at hout
      injection hout with hout
      subst hout
      have heq : hl = eh := by
        rw [show enrichedHitsOf (Json.obj (jSet rkvs "enriched_content"
            (Json.obj [("total_hits", Json.num (rs.length : ℤ)),
              ("enriched_hits", Json.arr eh)]))) = some eh from by
          simp [enrichedHitsOf, jLookup_jSet_self, jLookup]] at hhl
        injection hhl with hhl
        exact hhl.symm
      subst heq
      obtain ⟨hlen, hmem⟩ := enrichLoop_ok_spec getDoc _ hl h6
      rw [hmax] at hlen h6
      refine ⟨hlen, ?_, hmem⟩
      rw [hlen]
      calc (rs.take k.toNat).countP hitKeep ≤ (rs.take k.toNat).length :=
            List.countP_le_length _
        _ = min k.toNat rs.length := List.length_take _ _
        _ = min hs0.length k.toNat := by
            rw [mapM_option_length validateSearchHit hs0 rs hv, Nat.min_comm]
    | null => exact Except.noConfusion hout
    | bool b => exact Except.noConfusion hout
    | num q => exact Except.noConfusion hout
    | str s => exact Except.noConfusion hout
    | arr l2 => exact Except.noConfusion hout

def c3GoodHit : Json := .obj [("data", .obj [("reference",
  .obj [("id", .str "A"), ("index", .str "i")]), ("content", .obj [])])]

def c3BadHit : Json := .obj [("data", .obj [("reference", .obj [])])]

def c3BadHitDump : Json := .obj [("data", .obj [("reference",
  .obj [("id", Json.null), ("index", Json.null)]), ("content", Json.null)])]

def c3Fixture : Json := .obj [("content", .arr [.obj [("mimeType", .str "application/json"),
  ("text", .str (pyJsonDumps (.obj [("results", .arr [c3GoodHit, c3BadHit])])))]])]

def c3EnrichedHit : Json := .obj [("id", .str "A"), ("index", .str "i"),
  ("search_highlights", .arr []), ("full_content", .obj [("found", .bool true)])]

def c3Out : Json := .obj [("content", .arr [.obj [("mimeType", .str "application/json"),
  ("text", .str (pyJsonDumps (.obj [("results", .arr [c3GoodHit, c3BadHit])])))]]),
  ("enriched_content", .obj [("total_hits", .num 2),
    ("enriched_hits", .arr [c3EnrichedHit])])]

theorem enriched_hits_bounded_witness :
    (0 ≤ (5 : ℤ) ∧
      parseMcpContentText c3Fixture =
        some (.obj [("results", .arr [c3GoodHit, c3BadHit])]) ∧
      pyTruthy (.obj [("results", .arr [c3GoodHit, c3BadHit])]) = true ∧
      jLookup [("results", .arr [c3GoodHit, c3BadHit])] "results" =
        some (.arr [c3GoodHit, c3BadHit]) ∧
      [c3GoodHit, c3BadHit].mapM validateSearchHit = some [c3GoodHit, c3BadHitDump] ∧
      enrichModel c3Fixture (fun _ _ => .ok (.obj [("found", .bool true)])) 5 = .ok c3Out ∧
      enrichedHitsOf c3Out = some [c3EnrichedHit]) ∧
    ([c3EnrichedHit].length = ([c3GoodHit, c3BadHitDump].take (5 : ℤ).toNat).countP hitKeep ∧
      [c3EnrichedHit].length ≤ min [c3GoodHit, c3BadHit].length (5 : ℤ).toNat ∧
      ∀ x ∈ [c3EnrichedHit], ∃ i ix hlj fc, x = .obj [("id", i), ("index", ix),
        ("search_highlights", hlj), ("full_content", fc)] ∧
        pyTruthy i = true ∧ pyTruthy ix = true) :=
  ⟨⟨by decide, rfl, rfl, rfl, rfl, rfl, rfl⟩,
    enriched_hits_bounded c3Fixture (fun _ _ => .ok (.obj [("found", .bool true)])) 5
      [("results", .arr [c3GoodHit, c3BadHit])] [c3GoodHit, c3BadHit]
      [c3GoodHit, c3BadHitDump] c3Out [c3EnrichedHit]
      (by decide) rfl rfl rfl rfl rfl rfl⟩
/-! ## `execute` claims: pagination (C2) and truncation-before-LLM (C10) -/

/-- Inversion of steps 1-4 of `execute`: on success the returned intent is
the computed one, and the pagination either comes from `tryPagination` on
the (possibly enriched) result for a content-search intent, or is the plain
limit/offset record. -/
theorem executeCore_ok_inv (cfg : Settings) (q : String) (useLLM : Bool)
    (limit offset top_n : ℤ) (inv : Invoker) (intentResp : String → String)
    (cache : List (String × Json)) (intentJ raw : Json) (pag : List (String × Json))
    (h : executeCore cfg q useLLM limit offset top_n inv intentResp cache =
      .ok (intentJ, raw, pag)) :
    intentJ = (if useLLM then analyzeWithLLM cache intentResp q
               else intentToJson (analyzeRuleBased q)) ∧
    ((contentSearchCheck intentJ = .ok true ∧ pag = tryPagination raw limit offset) ∨
     (contentSearchCheck intentJ = .ok false ∧
        pag = [("limit", .num (limit : ℚ)), ("offset", .num (offset : ℚ))])) := by
  simp only [executeCore] at h
  set i0 := (if useLLM then analyzeWithLLM cache intentResp q
             else intentToJson (analyzeRuleBased q)) with hi0
  cases h1 : pySubscript i0 "tool" with
  | error e =>
    simp only [h1, except_bind_error] at h
    exact Except.noConfusion h
  | ok toolJ =>
    simp only [h1, except_bind_ok] at h
    cases h2 : buildArguments toolJ q cfg.products_index limit offset with
    | error e =>
      simp only [h2, except_bind_error] at h
      exact Except.noConfusion h
    | ok args =>
      simp only [h2, except_bind_ok] at h
      cases h3 : inv.callTool toolJ args with
      | error e =>
        simp only [h3, except_bind_error] at h
        exact Except.noConfusion h
      | ok raw0 =>
        simp only [h3, except_bind_ok] at h
        cases h4 : contentSearchCheck i0 with
        | error e =>
          simp only [h4, except_bind_error] at h
          exact Except.noConfusion h
        | ok c =>
          simp only [h4, except_bind_ok] at h
          cases c with
          | true =>
            rw [if_pos rfl] at h
            cases h5 : enrichModel raw0 inv.getDoc top_n with
            | error e =>
              simp only [h5, except_bind_error] at h
              exact Except.noConfusion h
            | ok raw2 =>
              simp only [h5, except_bind_ok, except_pure_eq] at h
              injection h with h
              injection h with hI h
              injection h with hR hP
              subst hI
              subst hR
              subst hP
              exact ⟨rfl, Or.inl ⟨h4, rfl⟩⟩
          | false =>
            rw [if_neg (by simp)] at h
            rw [except_pure_eq] at h
            injection h with h
            injection h with hI h
            injection h with hR hP
            subst hI
            subst hR
            subst hP
            exact ⟨rfl, Or.inr ⟨h4, rfl⟩⟩

/-- C2: for a successful `execute` run whose intent is a content-search
action, when the pagination block reads an integer `total_hits` and the
count `shown` of enriched hits, the pagination carries `has_more` true iff
`total_hits > offset + shown`, and `next_offset` equal to `offset + shown`
exactly when `has_more` is true and null otherwise. -/
theorem pagination_has_more_iff (cfg : Settings) (q : String) (useLLM : Bool)
    (limit offset top_n : ℤ) (inv : Invoker) (intentResp : String → String)
    (cache : List (String × Json)) (intentJ raw : Json) (pag : List (String × Json))
    (total : Json) (shown : ℤ)
    (h : executeCore cfg q useLLM limit offset top_n inv intentResp cache =
      .ok (intentJ, raw, pag))
    (hc : contentSearchCheck intentJ = .ok true)
    (ht : enrichedTotals raw = .ok (total, shown))
    (hi : pyIsInt total = true) :
    ∃ hm : Bool, jLookup pag "has_more" = some (.bool hm) ∧
      (hm = true ↔ (offset : ℚ) + (shown : ℚ) < pyNumVal total) ∧
      jLookup pag "next_offset" =
        some (if hm = true then Json.num ((offset : ℚ) + (shown : ℚ)) else Json.null) := by
  obtain ⟨-, hbr⟩ := executeCore_ok_inv cfg q useLLM limit offset top_n inv intentResp
    cache intentJ raw pag h
  rcases hbr with ⟨-, hpag⟩ | ⟨hfalse, -⟩
  · subst hpag
    unfold tryPagination
    rw [ht]
    simp only [hi, if_true]
    refine ⟨decide (pyNumVal total > (offset : ℚ) + (shown : ℚ)), ?_, ?_, ?_⟩
    · simp [jLookup]
    · simp [gt_iff_lt]
    · simp [jLookup]
  · rw [hc] at hfalse
    exact absurd hfalse (by simp)

def c2Payload : Json := .obj [("results", .arr [
  .obj [("data", .obj [("reference", .obj [("id", .str "A"), ("index", .str "i")]),
    ("content", .obj [])])],
  .obj [("data", .null)]])]

def c2Fixture : Json := .obj [("content", .arr [.obj [
  ("mimeType", .str "application/json"), ("text", .str (pyJsonDumps c2Payload))]])]

def c2Inv : Invoker := ⟨fun _ _ => .ok c2Fixture, fun _ _ => .ok (.obj [("found", .bool true)])⟩

def c2Intent : Json := .obj [("intent", .str "search_products"),
  ("action", .str "search_products"), ("tool", .str "catalog_products_search"),
  ("confidence", .num (4/5))]

def c2Raw2 : Json := .obj [("content", .arr [.obj [
  ("mimeType", .str "application/json"), ("text", .str (pyJsonDumps c2Payload))]]),
  ("enriched_content", .obj [("total_hits", .num 2), ("enriched_hits", .arr [
    .obj [("id", .str "A"), ("index", .str "i"), ("search_highlights", .arr []),
      ("full_content", .obj [("found", .bool true)])]])])]

theorem pagination_has_more_iff_witness :
    (executeCore ⟨"products", 25000⟩ "find food" false 5 0 1 c2Inv (fun _ => "") [] =
        .ok (c2Intent, c2Raw2, tryPagination c2Raw2 5 0) ∧
      contentSearchCheck c2Intent = .ok true ∧
      enrichedTotals c2Raw2 = .ok (.num 2, 1) ∧
      pyIsInt (.num 2) = true) ∧
    (∃ hm : Bool, jLookup (tryPagination c2Raw2 5 0) "has_more" = some (.bool hm) ∧
      (hm = true ↔ (((0 : ℤ) : ℚ) + ((1 : ℤ) : ℚ) < pyNumVal (.num 2))) ∧
      jLookup (tryPagination c2Raw2 5 0) "next_offset" =
        some (if hm = true then Json.num (((0 : ℤ) : ℚ) + ((1 : ℤ) : ℚ)) else Json.null)) :=
  ⟨⟨rfl, rfl, rfl, rfl⟩,
    pagination_has_more_iff ⟨"products", 25000⟩ "find food" false 5 0 1 c2Inv (fun _ => "")
      [] c2Intent c2Raw2 (tryPagination c2Raw2 5 0) (.num 2) 1 rfl rfl rfl rfl⟩

/-- C10: the truncation check runs on the serialized envelope before
`llm_analysis` is attached: whenever that envelope fits the configured
character limit, the returned output carries no `truncated` flag and no
`truncation_message`, regardless of `use_llm` and of how long the attached
analysis text makes the final serialized output. -/
theorem truncation_decided_before_llm (cfg : Settings) (q : String) (useLLM : Bool)
    (limit offset top_n : ℤ) (inv : Invoker) (intentResp : String → String)
    (analysisResp : String → Json → String) (cache : List (String × Json))
    (intentJ raw : Json) (pag : List (String × Json)) (out : Json)
    (hcore : executeCore cfg q useLLM limit offset top_n inv intentResp cache =
      .ok (intentJ, raw, pag))
    (hlen : ¬(((dumpJson (envelopeOf q intentJ raw pag)).length : ℤ) > cfg.character_limit))
    (hout : executeModel cfg q useLLM limit offset top_n inv intentResp analysisResp cache =
      .ok out) :
    ∃ kvs, out = .obj kvs ∧ jLookup kvs "truncated" = none ∧
      jLookup kvs "truncation_message" = none := by
  unfold executeModel at hout
  simp only [hcore, except_bind_ok] at hout
  have htr : truncCheck cfg (envelopeOf q intentJ raw pag) = envelopeOf q intentJ raw pag := by
    unfold truncCheck
    rw [if_neg hlen]
  rw [htr] at hout
  cases useLLM with
  | false =>
    rw [if_neg (by simp)] at hout
    rw [except_pure_eq] at hout
    injection hout with hout
    subst hout
    refine ⟨_, rfl, ?_, ?_⟩ <;> simp [jLookup]
  | true =>
    rw [if_pos rfl] at hout
    simp only [envelopeOf] at hout
    rw [except_pure_eq] at hout
    injection hout with hout
    subst hout
    refine ⟨_, rfl, ?_, ?_⟩ <;> simp [jSet, jLookup]

def c10Payload : Json := .obj [("results", .arr [
  .obj [("data", .obj [("reference", .obj [("id", .str "A"), ("index", .str "i")]),
    ("content", .obj [])])]])]

def c10Fixture : Json := .obj [("content", .arr [.obj [
  ("mimeType", .str "application/json"), ("text", .str (pyJsonDumps c10Payload))]])]

def c10Inv : Invoker :=
  ⟨fun _ _ => .ok c10Fixture, fun _ _ => .ok (.obj [("found", .bool true)])⟩

def c10Reply : String :=
  "\x7b\"intent\": \"s\", \"action\": \"search_products\", \"tool\": \"catalog_products_search\", \"confidence\": 1\x7d"

def c10Intent : Json := .obj [("intent", .str "s"), ("action", .str "search_products"),
  ("tool", .str "catalog_products_search"), ("confidence", .num 1)]

def c10Raw2 : Json := .obj [("content", .arr [.obj [
  ("mimeType", .str "application/json"), ("text", .str (pyJsonDumps c10Payload))]]),
  ("enriched_content", .obj [("total_hits", .num 1), ("enriched_hits", .arr [
    .obj [("id", .str "A"), ("index", .str "i"), ("search_highlights", .arr []),
      ("full_content", .obj [("found", .bool true)])]])])]

def c10Analysis : String → Json → String := fun _ _ => String.mk (List.replicate 400 'a')

def c10Out : Json := .obj (jSet [("query", .str "hello"), ("intent", c10Intent),
  ("mcp_result", c10Raw2), ("pagination", .obj (tryPagination c10Raw2 5 0)),
  ("schema_version", .str SCHEMA_VERSION)] "llm_analysis"
  (.str (String.mk (List.replicate 400 'a'))))

set_option maxRecDepth 40000 in
theorem truncation_decided_before_llm_witness :
    (executeCore ⟨"products", 600⟩ "hello" true 5 0 1 c10Inv (fun _ => c10Reply) [] =
        .ok (c10Intent, c10Raw2, tryPagination c10Raw2 5 0) ∧
      ¬(((dumpJson (envelopeOf "hello" c10Intent c10Raw2
          (tryPagination c10Raw2 5 0))).length : ℤ) > (600 : ℤ)) ∧
      executeModel ⟨"products", 600⟩ "hello" true 5 0 1 c10Inv (fun _ => c10Reply)
        c10Analysis [] = .ok c10Out) ∧
    ((600 : ℤ) < ((dumpJson c10Out).length : ℤ)) ∧
    (∃ kvs, c10Out = .obj kvs ∧ jLookup kvs "truncated" = none ∧
      jLookup kvs "truncation_message" = none) :=
  ⟨⟨rfl, by decide, rfl⟩, by decide,
    truncation_decided_before_llm ⟨"products", 600⟩ "hello" true 5 0 1 c10Inv
      (fun _ => c10Reply) c10Analysis [] c10Intent c10Raw2 (tryPagination c10Raw2 5 0)
      c10Out rfl (by decide) rfl⟩
